import Mathlib

/-!
Verification of the critical-path-method (CPM) scripts.

The repository contains two Python variants of the same engine:
  * `critical_path_script.py`   — unit durations, plain functions (namespace `Script1`);
  * `critical_path_script_2.py` — priority/status-weighted durations, class based
    (namespace `Script2`).

Python dictionaries are modelled as association lists where a prepended entry
shadows older ones (matching dict overwrite on assignment); dict/set membership
tests are Boolean; Python floats are modelled as exact rationals; the unbounded
while-loop of Kahn's algorithm is modelled with explicit fuel equal to the node
count, which suffices for every run the scripts' dict semantics allow.
-/

/-- A task record, matching the JSON node objects both scripts consume.
Fields other than `id` may be absent in the input, hence `Option`. -/
structure Node where
  id : String
  title : Option String := none
  status : Option String := none
  priority : Option String := none
  assignee : Option String := none
  epicName : Option String := none
  onCriticalPath : Option Bool := none
deriving Repr, DecidableEq

/-- A dependency record (a directed edge `source → target`), matching the JSON
dependency objects; `pathType` is the derived annotation. -/
structure Dependency where
  source : String
  target : String
  pathType : Option String := none
deriving Repr, DecidableEq

/-- Lookup in an association list modelling a Python dict: the first (most
recently prepended) entry for a key wins. -/
def alookup (l : List (String × α)) (i : String) : Option α :=
  (l.find? (fun p => p.1 == i)).map (·.2)

/-- Keys of an association list. -/
def akeys (l : List (String × α)) : List String := l.map (·.1)

/-- The ids of a node list (for `Script2` this is the key set of the
`self.nodes` dict; the scripts assume ids are unique). -/
def nodeIds (nodes : List Node) : List String := nodes.map (·.id)

/-- `node_id in self.nodes` membership test. -/
def hasNode (nodes : List Node) (i : String) : Bool :=
  (nodes.find? (fun n => n.id == i)).isSome

/-- `self.nodes[node_id]` dict access (`none` would be a Python `KeyError`). -/
def findNode (nodes : List Node) (i : String) : Option Node :=
  nodes.find? (fun n => n.id == i)

/-- Successor adjacency of an edge list: `graph[u]` as built by appending
`target` for each dependency with source `u`, in input order. -/
def succE (E : List Dependency) (u : String) : List String :=
  (E.filter (fun d => d.source == u)).map (·.target)

/-- Predecessor adjacency: `reverse_graph[v]`. -/
def predE (E : List Dependency) (v : String) : List String :=
  (E.filter (fun d => d.target == v)).map (·.source)

/-- In-degree of `v` (number of edges into `v`), as the Python integer. -/
def indegE (E : List Dependency) (v : String) : Int :=
  ((E.filter (fun d => d.target == v)).length : Int)

/-- Out-degree of `u`. -/
def outdegE (E : List Dependency) (u : String) : Int :=
  ((E.filter (fun d => d.source == u)).length : Int)

/-- One step of the inner loop of Kahn's algorithm, shared by both scripts:
`for target in graph[current]: in_degree[target] -= 1;
 if in_degree[target] == 0: queue.append(target)`.
In-degrees are integers, exactly as in Python (they may go negative on
repeated edges). -/
def processTargets (inDeg : String → Int) (queue : List String) :
    List String → (String → Int) × List String
  | [] => (inDeg, queue)
  | t :: ts =>
      let d := inDeg t - 1
      let inDeg' := fun x => if x = t then d else inDeg x
      let queue' := if d = 0 then queue ++ [t] else queue
      processTargets inDeg' queue' ts

/-- The while-loop of Kahn's algorithm, shared by both scripts:
`while queue: current = queue.popleft(); result.append(current); …`.
`fuel` bounds the number of dequeues; with `fuel` = node count the loop always
runs to completion, since each node is enqueued at most once. -/
def kahnGo (succ : String → List String) :
    Nat → List String → (String → Int) → List String → List String
  | 0, _, _, result => result
  | _ + 1, [], _, result => result
  | fuel + 1, u :: queue, inDeg, result =>
      let s := processTargets inDeg queue (succ u)
      kahnGo succ fuel s.2 s.1 (result ++ [u])

namespace Script2

/-- The dependencies that `build_graph` keeps: `if source in self.nodes and
target in self.nodes`. -/
def filteredDeps (nodes : List Node) (deps : List Dependency) : List Dependency :=
  deps.filter (fun d => hasNode nodes d.source && hasNode nodes d.target)

/-- `self.graph.get(u, [])`: successors of `u`, in dependency-list order. -/
def graphSucc (nodes : List Node) (deps : List Dependency) (u : String) : List String :=
  succE (filteredDeps nodes deps) u

/-- `self.reverse_graph.get(v, [])`: predecessors of `v`, in dependency-list
order. -/
def graphPred (nodes : List Node) (deps : List Dependency) (v : String) : List String :=
  predE (filteredDeps nodes deps) v

/-- The in-degree map built at the start of `topological_sort` (number of kept
edges into `v`). -/
def inDegree (nodes : List Node) (deps : List Dependency) (v : String) : Int :=
  indegE (filteredDeps nodes deps) v

/-- `get_priority_weight`. -/
def get_priority_weight (priority : String) : ℚ :=
  if priority = "Highest" then 5
  else if priority = "High" then 4
  else if priority = "Medium" then 3
  else if priority = "Low" then 2
  else if priority = "Lowest" then 1
  else 1

/-- `get_status_weight` (0.5 and 1.5 are exact in binary floating point, so ℚ
is faithful here). -/
def get_status_weight (status : String) : ℚ :=
  if status = "Done" then 0
  else if status = "In Progress" then 1/2
  else if status = "To Do" then 1
  else if status = "On hold" then 3/2
  else 1

/-- The duration formula applied to a node record, with the source's
`node.get('priority', 'Low')` / `node.get('status', 'To Do')` defaults. -/
def nodeDuration (node : Node) : ℚ :=
  max (get_priority_weight (node.priority.getD "Low") *
       get_status_weight (node.status.getD "To Do")) (1/10)

/-- `calculate_node_duration`. The `none` branch is a Python `KeyError`; the
script only ever calls this with ids drawn from `self.nodes`, so that branch is
unreachable (the value chosen keeps the function total and positive). -/
def calculate_node_duration (nodes : List Node) (node_id : String) : ℚ :=
  match findNode nodes node_id with
  | some node => nodeDuration node
  | none => 1/10

/-- The raw Kahn order (the `result` list right before the cycle check). -/
def kahnOrder (nodes : List Node) (deps : List Dependency) : List String :=
  kahnGo (graphSucc nodes deps) (nodeIds nodes).length
    ((nodeIds nodes).filter (fun i => inDegree nodes deps i == 0))
    (inDegree nodes deps) []

/-- `topological_sort`: Kahn's algorithm seeded with the zero-in-degree nodes;
if the order misses some nodes a cycle exists, the script prints a warning
(modelled by the Boolean flag) and appends the missing ids (Python iterates a
set there; the order chosen is the node-list order, which no downstream
computation depends on). -/
def topological_sort (nodes : List Node) (deps : List Dependency) :
    List String × Bool :=
  let result := kahnOrder nodes deps
  if result.length != nodes.length then
    (result ++ (nodeIds nodes).filter (fun i => !(result.contains i)), true)
  else
    (result, false)

/-- `max_predecessor_finish`: fold of the forward pass's inner loop, skipping
predecessors that have no earliest-finish entry yet. -/
def maxPredFinish (preds : List String) (ef : List (String × ℚ)) : ℚ :=
  preds.foldl (fun acc p =>
    match alookup ef p with
    | some v => max acc v
    | none => acc) 0

/-- The forward pass: for each node of the order, record earliest start
(max of known predecessor finishes) and earliest finish (start + duration).
The duration policy (`self.calculate_node_duration`) is passed as a
function. -/
def forwardGo (dur : String → ℚ) (preds : String → List String) :
    List String → List (String × ℚ) → List (String × ℚ) →
    List (String × ℚ) × List (String × ℚ)
  | [], es, ef => (es, ef)
  | i :: rest, es, ef =>
      let d := dur i
      let s := maxPredFinish (preds i) ef
      forwardGo dur preds rest ((i, s) :: es) ((i, s + d) :: ef)

/-- `project_completion = max(earliest_finish.values())` with 0 for the empty
dict (Python's `max` over dict values; the fold order is irrelevant since `max`
is associative and commutative). -/
def projectCompletion (ef : List (String × ℚ)) : ℚ :=
  match ef.map (·.2) with
  | [] => 0
  | v :: vs => vs.foldl max v

/-- `min_successor_start`: fold of the backward pass's inner loop, starting
from the project completion time and skipping unresolved successors. -/
def minSuccStart (succs : List String) (pc : ℚ) (ls : List (String × ℚ)) : ℚ :=
  succs.foldl (fun acc s =>
    match alookup ls s with
    | some v => min acc v
    | none => acc) pc

/-- The backward pass body, iterating the reversed order: end nodes keep their
pre-seeded latest finish, other nodes get the minimum successor latest start,
and every node gets latest start = latest finish − duration. -/
def backwardGo (dur : String → ℚ) (succ : String → List String) (pc : ℚ) :
    List String → List (String × ℚ) → List (String × ℚ) →
    List (String × ℚ) × List (String × ℚ)
  | [], lf, ls => (lf, ls)
  | i :: rest, lf, ls =>
      let d := dur i
      let lfi := match alookup lf i with
        | some v => v
        | none => minSuccStart (succ i) pc ls
      let lf' := match alookup lf i with
        | some _ => lf
        | none => (i, lfi) :: lf
      backwardGo dur succ pc rest lf' ((i, lfi - d) :: ls)

/-- The topological order actually used by `calculate_critical_path`. -/
def topoOrder (nodes : List Node) (deps : List Dependency) : List String :=
  (topological_sort nodes deps).1

/-- Whether the cycle warning was printed. -/
def cycleDetected (nodes : List Node) (deps : List Dependency) : Bool :=
  (topological_sort nodes deps).2

/-- The earliest-start/earliest-finish tables of the forward pass. -/
def forwardTables (nodes : List Node) (deps : List Dependency) :
    List (String × ℚ) × List (String × ℚ) :=
  forwardGo (calculate_node_duration nodes) (graphPred nodes deps)
    (topoOrder nodes deps) [] []

/-- `earliest_start` lookups (`earliest_start.get(i, 0)` semantics). -/
def esOf (nodes : List Node) (deps : List Dependency) (i : String) : ℚ :=
  (alookup (forwardTables nodes deps).1 i).getD 0

/-- `earliest_finish` lookups. -/
def efOf (nodes : List Node) (deps : List Dependency) (i : String) : ℚ :=
  (alookup (forwardTables nodes deps).2 i).getD 0

/-- The project completion time of a run. -/
def pcOf (nodes : List Node) (deps : List Dependency) : ℚ :=
  projectCompletion (forwardTables nodes deps).2

/-- `end_nodes = [i for i in self.nodes if not self.graph.get(i, [])]`. -/
def endNodes (nodes : List Node) (deps : List Dependency) : List String :=
  (nodeIds nodes).filter (fun i => (graphSucc nodes deps i).isEmpty)

/-- The latest-finish/latest-start tables of the backward pass (latest finish
pre-seeded at the project completion time for end nodes). -/
def backwardTables (nodes : List Node) (deps : List Dependency) :
    List (String × ℚ) × List (String × ℚ) :=
  backwardGo (calculate_node_duration nodes) (graphSucc nodes deps)
    (pcOf nodes deps) (topoOrder nodes deps).reverse
    ((endNodes nodes deps).map (fun i => (i, pcOf nodes deps))) []

/-- `latest_finish` lookups. -/
def lfOf (nodes : List Node) (deps : List Dependency) (i : String) : ℚ :=
  (alookup (backwardTables nodes deps).1 i).getD 0

/-- `latest_start` lookups. -/
def lsOf (nodes : List Node) (deps : List Dependency) (i : String) : ℚ :=
  (alookup (backwardTables nodes deps).2 i).getD 0

/-- `slack[i] = latest_start.get(i, 0) - earliest_start.get(i, 0)`. -/
def slackOf (nodes : List Node) (deps : List Dependency) (i : String) : ℚ :=
  lsOf nodes deps i - esOf nodes deps i

/-- The critical-node set: ids of `self.nodes` with `|slack| < 0.001`. -/
def criticalNodes (nodes : List Node) (deps : List Dependency) : List String :=
  (nodeIds nodes).filter (fun i => |slackOf nodes deps i| < 1/1000)

/-- `self.nodes[i]['onCriticalPath'] = i in critical_nodes` for every node. -/
def annotateNodes (crit : List String) (nodes : List Node) : List Node :=
  nodes.map (fun n => { n with onCriticalPath := some (crit.contains n.id) })

/-- `dep['pathType'] = 'critical'` iff both endpoints are critical and present
in `self.nodes`, else `'parallel'`. -/
def annotateDeps (nodes : List Node) (crit : List String)
    (deps : List Dependency) : List Dependency :=
  deps.map (fun d =>
    let t : String :=
      if crit.contains d.source && crit.contains d.target &&
          hasNode nodes d.source && hasNode nodes d.target
      then "critical" else "parallel"
    { d with pathType := some t })

/-- `calculate_critical_path`: the whole pipeline, returning the annotated node
and dependency collections. -/
def calculate_critical_path (nodes : List Node) (deps : List Dependency) :
    List Node × List Dependency :=
  (annotateNodes (criticalNodes nodes deps) nodes,
   annotateDeps nodes (criticalNodes nodes deps) deps)

end Script2

namespace Script1

/-- `all_nodes`: the set of ids occurring as an endpoint of some dependency
(`build_graph` adds `source` and `target` of every dependency).  Python keeps
this as a set; the model uses a duplicate-free list — no Script1 result proved
here depends on its iteration order. -/
def allNodes (deps : List Dependency) : List String :=
  (deps.flatMap (fun d => [d.source, d.target])).dedup

/-- `graph[u]` of `build_graph` (no filtering against the node collection). -/
def graphSucc (deps : List Dependency) (u : String) : List String :=
  succE deps u

/-- `in_degree[v]` of `build_graph`. -/
def inDeg (deps : List Dependency) (v : String) : Int :=
  indegE deps v

/-- `out_degree[u]` of `build_graph`. -/
def outDeg (deps : List Dependency) (u : String) : Int :=
  outdegE deps u

/-- `topological_sort` of the first script: plain Kahn order, with no cycle
handling (a partial order is returned as-is when the graph has a cycle). -/
def topological_sort (deps : List Dependency) : List String :=
  kahnGo (succE deps) (allNodes deps).length
    ((allNodes deps).filter (fun i => indegE deps i == 0)) (indegE deps) []

/-- The inner relaxation loop of the first script's forward pass:
`for dependent in graph[node]: new_start = earliest_start[node] + 1; …`.
`node` is always a key of the table here, so the `getD 0` default is
unreachable. -/
def relaxGo (node : String) :
    List String → List (String × Int) → List (String × Int)
  | [], es => es
  | dep :: rest, es =>
      let ns := (alookup es node).getD 0 + 1
      let es' := match alookup es dep with
        | some old => if ns > old then (dep, ns) :: es else es
        | none => (dep, ns) :: es
      relaxGo node rest es'

/-- One iteration of `for node in topo_order` in the forward pass. -/
def forwardStep (succ : String → List String) (es : List (String × Int))
    (node : String) : List (String × Int) :=
  let es₀ := if (alookup es node).isSome then es else (node, 0) :: es
  relaxGo node (succ node) es₀

/-- The first script's `earliest_start` table: zero-in-degree nodes seeded at
0, then relaxation along the topological order with unit durations. -/
def earliestStart (deps : List Dependency) : List (String × Int) :=
  let es0 := ((allNodes deps).filter (fun i => indegE deps i == 0)).map
    (fun i => (i, (0 : Int)))
  (topological_sort deps).foldl (forwardStep (succE deps)) es0

/-- `min_dependent_latest`: minimum of `latest_start[dependent] - 1` over the
resolved dependents, `none` standing for Python's `float('inf')`. -/
def minDepLatest (succs : List String) (ls : List (String × Int)) : Option Int :=
  succs.foldl (fun acc s =>
    match alookup ls s with
    | some v =>
        some (match acc with
          | some m => min m (v - 1)
          | none => v - 1)
    | none => acc) none

/-- One iteration of `for node in reversed(topo_order)` in the first script's
backward pass. -/
def backStep (deps : List Dependency) (es : List (String × Int))
    (ls : List (String × Int)) (node : String) : List (String × Int) :=
  if (alookup ls node).isSome then ls
  else if outdegE deps node == 0 then (node, (alookup es node).getD 0) :: ls
  else
    match minDepLatest (succE deps node) ls with
    | some m => (node, m) :: ls
    | none => (node, (alookup es node).getD 0) :: ls

/-- The first script's `latest_start` table: zero-out-degree nodes seeded at
their earliest start, then the backward sweep over the reversed order. -/
def latestStart (deps : List Dependency) : List (String × Int) :=
  let es := earliestStart deps
  let ls0 := ((allNodes deps).filter (fun i => outdegE deps i == 0)).map
    (fun i => (i, (alookup es i).getD 0))
  (topological_sort deps).reverse.foldl (backStep deps es) ls0

/-- `calculate_critical_path` of the first script: the nodes whose earliest
start equals their latest start (zero slack, integer arithmetic). -/
def criticalNodes (deps : List Dependency) : List String :=
  let es := earliestStart deps
  let ls := latestStart deps
  (allNodes deps).filter (fun n => (alookup es n).getD 0 == (alookup ls n).getD 0)

/-- The placeholder node synthesized by `create_missing_nodes` (note the
lower-case `"medium"` priority written by the source). -/
def placeholderNode (i : String) : Node :=
  { id := i,
    title := some ("Placeholder for " ++ i),
    status := some "Unknown",
    assignee := some "Unassigned",
    priority := some "medium",
    epicName := some "Unknown Epic",
    onCriticalPath := some false }

/-- `create_missing_nodes`: append a placeholder for every id referenced by a
dependency but absent from the node collection (Python iterates the missing-id
set; the model appends in first-reference order, which no proved result
depends on). -/
def create_missing_nodes (nodes : List Node) (deps : List Dependency) :
    List Node :=
  let existing := nodeIds nodes
  let referenced := (deps.flatMap (fun d => [d.source, d.target])).dedup
  let missing := referenced.filter (fun i => !(existing.contains i))
  nodes ++ missing.map placeholderNode

/-- `update_nodes_and_dependencies`: create missing nodes, write
`onCriticalPath` on every node, and classify every dependency (the source's
`critical_edges` set is inlined: an edge is in it exactly when both endpoints
are critical). -/
def update_nodes_and_dependencies (nodes : List Node) (deps : List Dependency)
    (crit : List String) : List Node × List Dependency :=
  let nodes' := create_missing_nodes nodes deps
  (nodes'.map (fun n => { n with onCriticalPath := some (crit.contains n.id) }),
   deps.map (fun d =>
     let t : String :=
       if crit.contains d.source && crit.contains d.target
       then "critical" else "parallel"
     { d with pathType := some t }))

/-- The decision logic of `main`: with no dependencies every node is marked
non-critical; otherwise the graph pipeline runs and annotates. -/
def mainRun (nodes : List Node) (deps : List Dependency) :
    List Node × List Dependency :=
  if deps.isEmpty then
    (nodes.map (fun n => { n with onCriticalPath := some false }), deps)
  else
    update_nodes_and_dependencies nodes deps (criticalNodes deps)

end Script1

/-- Demo node with id "A" and no attributes. -/
def demoA : Node := { id := "A" }

/-- Demo node with id "B" and no attributes. -/
def demoB : Node := { id := "B" }

/-- Demo node with id "C" and no attributes. -/
def demoC : Node := { id := "C" }

/-- Demo edge A → B. -/
def demoAB : Dependency := { source := "A", target := "B" }

/-- Demo edge B → A (used to build a cycle). -/
def demoBA : Dependency := { source := "B", target := "A" }

/-- Demo edge A → C. -/
def demoAC : Dependency := { source := "A", target := "C" }

/-- An order respects an edge list when, at every occurrence of an edge's
target, the edge's source has already appeared strictly earlier. -/
def RespectsSplit (E : List Dependency) (l : List String) : Prop :=
  ∀ d ∈ E, ∀ a b, l = a ++ d.target :: b → d.source ∈ a

/-- Flip every edge (used to transport order-respect to the reversed order). -/
def flipDeps (E : List Dependency) : List Dependency :=
  E.map (fun d => { source := d.target, target := d.source, pathType := d.pathType })

/-- Number of edges into `v` whose source lies in `S` (with multiplicity). -/
def edgesFrom (E : List Dependency) (v : String) (S : List String) : Nat :=
  (E.filter (fun d => d.target == v && S.contains d.source)).length

/-- The invariant of Kahn's algorithm relating the queue `Q`, the mutable
in-degree table `f` and the accumulated order `R`, over the edge list `E` and
node universe `V`. -/
structure KInv (E : List Dependency) (V : List String) (Q : List String)
    (f : String → Int) (R : List String) : Prop where
  nodup : (R ++ Q).Nodup
  subV : ∀ x ∈ R ++ Q, x ∈ V
  deg : ∀ v, f v = indegE E v - (edgesFrom E v R : Int)
  qzero : ∀ v ∈ Q, f v = 0
  resp : RespectsSplit E R
  qsrc : ∀ v ∈ Q, ∀ d ∈ E, d.target = v → d.source ∈ R

/-- The invariant of the backward pass relating the processed prefix `m₁` of
the reversed order to the latest-finish table `lf` and latest-start table
`ls`, over the duration policy, edge list, project completion time `pc`,
earliest-finish table `efmap` and pre-seeded end-node list `ends`. -/
structure BInv (dur : String → ℚ) (E : List Dependency) (pc : ℚ)
    (efmap : List (String × ℚ)) (ends : List String)
    (m₁ : List String) (lf ls : List (String × ℚ)) : Prop where
  keys1 : ∀ i, (alookup lf i).isSome ↔ (i ∈ m₁ ∨ i ∈ ends)
  le_pc : ∀ i v, alookup lf i = some v → v ≤ pc
  keys2 : akeys ls = m₁.reverse
  seeds : ∀ i ∈ ends, alookup lf i = some pc
  prop : ∀ i ∈ m₁, ∃ fv, alookup lf i = some fv ∧
    alookup ls i = some (fv - dur i) ∧
    (i ∈ ends → fv = pc) ∧
    (i ∉ ends → fv = Script2.minSuccStart (succE E i) pc ls) ∧
    (∀ ev, alookup efmap i = some ev → ev ≤ fv)

theorem akeys_cons (j : String) (w : α) (l : List (String × α)) :
    akeys ((j, w) :: l) = j :: akeys l := rfl

theorem alookup_cons (j : String) (w : α) (l : List (String × α)) (i : String) :
    alookup ((j, w) :: l) i = if j = i then some w else alookup l i := by
  by_cases h : j = i <;> simp [alookup, List.find?_cons, h]

theorem alookup_isSome_iff (l : List (String × α)) (i : String) :
    (alookup l i).isSome ↔ i ∈ akeys l := by
  induction l with
  | nil => simp [alookup, akeys]
  | cons p rest ih =>
      obtain ⟨j, w⟩ := p
      by_cases h : j = i
      · subst h; simp [alookup_cons, akeys_cons]
      · simp [alookup_cons, h, akeys_cons, ih, Ne.symm h]

theorem mem_of_alookup_eq_some {l : List (String × α)} {i : String} {v : α}
    (h : alookup l i = some v) : (i, v) ∈ l := by
  induction l with
  | nil => simp [alookup] at h
  | cons p rest ih =>
      obtain ⟨j, w⟩ := p
      by_cases hj : j = i
      · subst hj
        rw [alookup_cons, if_pos rfl] at h
        obtain rfl : w = v := by simpa using h
        exact List.mem_cons_self _ _
      · rw [alookup_cons, if_neg hj] at h
        exact List.mem_cons_of_mem _ (ih h)

theorem alookup_eq_some_of_mem {l : List (String × α)} (hn : (akeys l).Nodup)
    {i : String} {v : α} (hm : (i, v) ∈ l) : alookup l i = some v := by
  induction l with
  | nil => simp at hm
  | cons p rest ih =>
      obtain ⟨j, w⟩ := p
      rw [akeys_cons, List.nodup_cons] at hn
      rcases List.mem_cons.mp hm with h | h
      · simp only [Prod.mk.injEq] at h
        obtain ⟨rfl, rfl⟩ := h
        rw [alookup_cons, if_pos rfl]
      · have hj : j ≠ i := by
          intro e; subst e
          exact hn.1 (List.mem_map_of_mem Prod.fst h)
        rw [alookup_cons, if_neg hj]
        exact ih hn.2 h

theorem hasNode_iff (nodes : List Node) (i : String) :
    hasNode nodes i = true ↔ i ∈ nodeIds nodes := by
  simp only [hasNode, List.find?_isSome, nodeIds, List.mem_map, beq_iff_eq]


theorem contains_iff (l : List String) (i : String) :
    l.contains i = true ↔ i ∈ l := by
  simp [List.contains]

theorem foldl_max_init_le (l : List ℚ) (a : ℚ) : a ≤ l.foldl max a := by
  induction l generalizing a with
  | nil => exact le_refl a
  | cons x xs ih => exact le_trans (le_max_left a x) (ih (max a x))

theorem le_foldl_max (l : List ℚ) (a : ℚ) {x : ℚ} (hx : x ∈ l) :
    x ≤ l.foldl max a := by
  induction l generalizing a with
  | nil => simp at hx
  | cons y ys ih =>
      rcases List.mem_cons.mp hx with h | h
      · subst h
        exact le_trans (le_max_right a x) (foldl_max_init_le ys _)
      · exact ih (max a y) h

theorem foldl_max_le (l : List ℚ) (a c : ℚ) (ha : a ≤ c) (h : ∀ x ∈ l, x ≤ c) :
    l.foldl max a ≤ c := by
  induction l generalizing a with
  | nil => exact ha
  | cons x xs ih =>
      exact ih (max a x) (max_le ha (h x (List.mem_cons_self _ _)))
        (fun y hy => h y (List.mem_cons_of_mem _ hy))

theorem foldl_max_eq_init_or_mem (l : List ℚ) (a : ℚ) :
    l.foldl max a = a ∨ l.foldl max a ∈ l := by
  induction l generalizing a with
  | nil => exact Or.inl rfl
  | cons x xs ih =>
      have step : (x :: xs).foldl max a = xs.foldl max (max a x) := rfl
      rcases ih (max a x) with h | h
      · rcases le_total x a with hxa | hxa
        · left; rw [step, h, max_eq_left hxa]
        · right; rw [step, h, max_eq_right hxa]; exact List.mem_cons_self _ _
      · right; rw [step]; exact List.mem_cons_of_mem _ h

theorem le_foldl_min (l : List ℚ) (a c : ℚ) (ha : c ≤ a) (h : ∀ x ∈ l, c ≤ x) :
    c ≤ l.foldl min a := by
  induction l generalizing a with
  | nil => exact ha
  | cons x xs ih =>
      exact ih (min a x) (le_min ha (h x (List.mem_cons_self _ _)))
        (fun y hy => h y (List.mem_cons_of_mem _ hy))

theorem foldl_min_le_init (l : List ℚ) (a : ℚ) : l.foldl min a ≤ a := by
  induction l generalizing a with
  | nil => exact le_refl a
  | cons x xs ih => exact le_trans (ih (min a x)) (min_le_left a x)

theorem foldl_min_le (l : List ℚ) (a : ℚ) {x : ℚ} (hx : x ∈ l) :
    l.foldl min a ≤ x := by
  induction l generalizing a with
  | nil => simp at hx
  | cons y ys ih =>
      rcases List.mem_cons.mp hx with h | h
      · subst h
        exact le_trans (foldl_min_le_init ys _) (min_le_right a x)
      · exact ih (min a y) h

theorem foldl_min_eq_init_or_mem (l : List ℚ) (a : ℚ) :
    l.foldl min a = a ∨ l.foldl min a ∈ l := by
  induction l generalizing a with
  | nil => exact Or.inl rfl
  | cons x xs ih =>
      have step : (x :: xs).foldl min a = xs.foldl min (min a x) := rfl
      rcases ih (min a x) with h | h
      · rcases le_total a x with hxa | hxa
        · left; rw [step, h, min_eq_left hxa]
        · right; rw [step, h, min_eq_right hxa]; exact List.mem_cons_self _ _
      · right; rw [step]; exact List.mem_cons_of_mem _ h

theorem maxPredFinish_eq (ef : List (String × ℚ)) :
    ∀ (preds : List String) (a : ℚ),
      preds.foldl (fun acc p =>
        match alookup ef p with
        | some v => max acc v
        | none => acc) a
      = (preds.filterMap (alookup ef)).foldl max a := by
  intro preds
  induction preds with
  | nil => intro a; rfl
  | cons p ps ih =>
      intro a
      cases h : alookup ef p <;>
        simp [List.foldl_cons, List.filterMap_cons, h, ih]

theorem maxPredFinish_eq_filterMap (preds : List String) (ef : List (String × ℚ)) :
    Script2.maxPredFinish preds ef = (preds.filterMap (alookup ef)).foldl max 0 :=
  maxPredFinish_eq ef preds 0

theorem minSuccStart_eq (ls : List (String × ℚ)) :
    ∀ (succs : List String) (a : ℚ),
      succs.foldl (fun acc s =>
        match alookup ls s with
        | some v => min acc v
        | none => acc) a
      = (succs.filterMap (alookup ls)).foldl min a := by
  intro succs
  induction succs with
  | nil => intro a; rfl
  | cons s ss ih =>
      intro a
      cases h : alookup ls s <;>
        simp [List.foldl_cons, List.filterMap_cons, h, ih]

theorem minSuccStart_eq_filterMap (succs : List String) (pc : ℚ)
    (ls : List (String × ℚ)) :
    Script2.minSuccStart succs pc ls = (succs.filterMap (alookup ls)).foldl min pc :=
  minSuccStart_eq ls succs pc

theorem maxPredFinish_nonneg (preds : List String) (ef : List (String × ℚ)) :
    0 ≤ Script2.maxPredFinish preds ef := by
  rw [maxPredFinish_eq_filterMap]
  exact foldl_max_init_le _ 0

/-- C6: the weighted duration policy: duration is
`max(priority_weight × status_weight, 0.1)` with the stated weight tables
(`Highest..Lowest` ↦ 5..1, unrecognized ↦ 1; `Done/In Progress/To Do/On hold`
↦ 0/0.5/1/1.5, unrecognized ↦ 1), and every duration is at least 0.1, hence
positive. -/
theorem c6_weighted_duration_policy (p s : String)
    (hp : p ∉ ["Highest", "High", "Medium", "Low", "Lowest"])
    (hs : s ∉ ["Done", "In Progress", "To Do", "On hold"])
    (n : Node) (nodes : List Node) (i : String) :
    (Script2.get_priority_weight "Highest" = 5 ∧
     Script2.get_priority_weight "High" = 4 ∧
     Script2.get_priority_weight "Medium" = 3 ∧
     Script2.get_priority_weight "Low" = 2 ∧
     Script2.get_priority_weight "Lowest" = 1 ∧
     Script2.get_priority_weight p = 1) ∧
    (Script2.get_status_weight "Done" = 0 ∧
     Script2.get_status_weight "In Progress" = 1/2 ∧
     Script2.get_status_weight "To Do" = 1 ∧
     Script2.get_status_weight "On hold" = 3/2 ∧
     Script2.get_status_weight s = 1) ∧
    Script2.nodeDuration n =
      max (Script2.get_priority_weight (n.priority.getD "Low") *
           Script2.get_status_weight (n.status.getD "To Do")) (1/10) ∧
    1/10 ≤ Script2.calculate_node_duration nodes i ∧
    0 < Script2.calculate_node_duration nodes i := by
  simp only [List.mem_cons, List.not_mem_nil, or_false, not_or] at hp hs
  obtain ⟨hp1, hp2, hp3, hp4, hp5⟩ := hp
  obtain ⟨hs1, hs2, hs3, hs4⟩ := hs
  refine ⟨⟨by simp [Script2.get_priority_weight],
           by simp [Script2.get_priority_weight],
           by simp [Script2.get_priority_weight],
           by simp [Script2.get_priority_weight],
           by simp [Script2.get_priority_weight],
           by simp [Script2.get_priority_weight, hp1, hp2, hp3, hp4, hp5]⟩,
         ⟨by simp [Script2.get_status_weight],
           by simp [Script2.get_status_weight],
           by simp [Script2.get_status_weight],
           by simp [Script2.get_status_weight],
           by simp [Script2.get_status_weight, hs1, hs2, hs3, hs4]⟩,
         rfl, ?_, ?_⟩
  · unfold Script2.calculate_node_duration
    cases findNode nodes i with
    | none => norm_num
    | some node => exact le_max_right _ _
  · unfold Script2.calculate_node_duration
    cases findNode nodes i with
    | none => norm_num
    | some node =>
        exact lt_of_lt_of_le (by norm_num) (le_max_right _ (1/10))

/-- Witness for C6 at concrete unrecognized priority/status strings and a
concrete node. -/
theorem c6_witness :
    ("Critical" ∉ ["Highest", "High", "Medium", "Low", "Lowest"]) ∧
    ("Cancelled" ∉ ["Done", "In Progress", "To Do", "On hold"]) ∧
    (Script2.get_priority_weight "Critical" = 1 ∧
     Script2.get_status_weight "Cancelled" = 1 ∧
     1/10 ≤ Script2.calculate_node_duration [demoA] "A" ∧
     0 < Script2.calculate_node_duration [demoA] "A") := by
  have h := c6_weighted_duration_policy "Critical" "Cancelled"
    (by decide) (by decide) demoA [demoA] "A"
  exact ⟨by decide, by decide, h.1.2.2.2.2.2, h.2.1.2.2.2.2, h.2.2.2.1, h.2.2.2.2⟩

theorem criticalNodes_subset (nodes : List Node) (deps : List Dependency) :
    ∀ i ∈ Script2.criticalNodes nodes deps, i ∈ nodeIds nodes :=
  fun _ hi => (List.mem_filter.mp hi).1

theorem mem_criticalNodes_iff (nodes : List Node) (deps : List Dependency)
    (i : String) :
    i ∈ Script2.criticalNodes nodes deps ↔
      i ∈ nodeIds nodes ∧ |Script2.slackOf nodes deps i| < 1/1000 := by
  simp [Script2.criticalNodes, List.mem_filter]

/-- C3: slack is latest start minus earliest start, a node is critical exactly
when its absolute slack is below `1e-3`, and an edge is annotated `critical`
exactly when both endpoints are critical (`parallel` otherwise); hence a
`critical` edge has both endpoints critical. -/
theorem c3_slack_classification (nodes : List Node) (deps : List Dependency)
    (n : String) (hn : n ∈ nodeIds nodes) :
    Script2.slackOf nodes deps n =
      Script2.lsOf nodes deps n - Script2.esOf nodes deps n ∧
    (n ∈ Script2.criticalNodes nodes deps ↔
      |Script2.slackOf nodes deps n| < 1/1000) ∧
    Script2.annotateDeps nodes (Script2.criticalNodes nodes deps) deps =
      deps.map (fun d =>
        let t : String :=
          if d.source ∈ Script2.criticalNodes nodes deps ∧
             d.target ∈ Script2.criticalNodes nodes deps
          then "critical" else "parallel"
        { d with pathType := some t }) ∧
    (∀ d ∈ Script2.annotateDeps nodes (Script2.criticalNodes nodes deps) deps,
      d.pathType = some "critical" →
        d.source ∈ Script2.criticalNodes nodes deps ∧
        d.target ∈ Script2.criticalNodes nodes deps) := by
  have hmap : Script2.annotateDeps nodes (Script2.criticalNodes nodes deps) deps =
      deps.map (fun d =>
        let t : String :=
          if d.source ∈ Script2.criticalNodes nodes deps ∧
             d.target ∈ Script2.criticalNodes nodes deps
          then "critical" else "parallel"
        { d with pathType := some t }) := by
    unfold Script2.annotateDeps
    apply List.map_congr_left
    intro d _
    by_cases hs : d.source ∈ Script2.criticalNodes nodes deps <;>
      by_cases ht : d.target ∈ Script2.criticalNodes nodes deps
    · have hns := criticalNodes_subset nodes deps _ hs
      have hnt := criticalNodes_subset nodes deps _ ht
      simp [hs, ht, contains_iff, (hasNode_iff nodes d.source).mpr hns,
        (hasNode_iff nodes d.target).mpr hnt]
    · simp [hs, ht, contains_iff]
    · simp [hs, ht, contains_iff]
    · simp [hs, ht, contains_iff]
  refine ⟨rfl, ?_, hmap, ?_⟩
  · rw [mem_criticalNodes_iff]
    exact and_iff_right hn
  · rw [hmap]
    intro d hd hcrit
    obtain ⟨d₀, _, rfl⟩ := List.mem_map.mp hd
    by_cases hc : d₀.source ∈ Script2.criticalNodes nodes deps ∧
        d₀.target ∈ Script2.criticalNodes nodes deps
    · exact hc
    · simp only [hc, if_false] at hcrit
      simp at hcrit

/-- Witness for C3 on the two-node chain A → B. -/
theorem c3_witness :
    ("A" ∈ nodeIds [demoA, demoB]) ∧
    (Script2.slackOf [demoA, demoB] [demoAB] "A" =
      Script2.lsOf [demoA, demoB] [demoAB] "A" -
        Script2.esOf [demoA, demoB] [demoAB] "A") ∧
    ("A" ∈ Script2.criticalNodes [demoA, demoB] [demoAB] ↔
      |Script2.slackOf [demoA, demoB] [demoAB] "A"| < 1/1000) := by
  have h := c3_slack_classification [demoA, demoB] [demoAB] "A" (by decide)
  exact ⟨by decide, h.1, h.2.1⟩

/-- C4: when Kahn's order misses some nodes (a cycle), the run still completes:
the cycle flag (the printed warning) is raised, the missing node ids are
appended to the order so that it covers every node, and every node of the
annotated output carries an `onCriticalPath` value.  Totality of the model is
the "no fatal error" part. -/
theorem c4_cycle_tolerance (nodes : List Node) (deps : List Dependency)
    (hcyc : (Script2.kahnOrder nodes deps).length ≠ nodes.length) :
    Script2.cycleDetected nodes deps = true ∧
    Script2.topoOrder nodes deps =
      Script2.kahnOrder nodes deps ++
        (nodeIds nodes).filter
          (fun i => !((Script2.kahnOrder nodes deps).contains i)) ∧
    (∀ i ∈ nodeIds nodes, i ∈ Script2.topoOrder nodes deps) ∧
    ((Script2.calculate_critical_path nodes deps).1).length = nodes.length ∧
    (∀ n ∈ (Script2.calculate_critical_path nodes deps).1,
      n.onCriticalPath.isSome) := by
  have hbr : Script2.topological_sort nodes deps =
      (Script2.kahnOrder nodes deps ++
        (nodeIds nodes).filter
          (fun i => !((Script2.kahnOrder nodes deps).contains i)), true) := by
    unfold Script2.topological_sort
    simp [hcyc]
  refine ⟨?_, ?_, ?_, ?_, ?_⟩
  · unfold Script2.cycleDetected
    rw [hbr]
  · unfold Script2.topoOrder
    rw [hbr]
  · intro i hi
    unfold Script2.topoOrder
    rw [hbr]
    simp only [List.mem_append]
    by_cases hk : i ∈ Script2.kahnOrder nodes deps
    · exact Or.inl hk
    · right
      rw [List.mem_filter]
      exact ⟨hi, by simp [contains_iff, hk]⟩
  · unfold Script2.calculate_critical_path Script2.annotateNodes
    simp
  · intro n hn
    unfold Script2.calculate_critical_path Script2.annotateNodes at hn
    obtain ⟨n₀, _, rfl⟩ := List.mem_map.mp hn
    rfl

/-- Witness for C4 on the two-node cycle A → B → A. -/
theorem c4_witness :
    ((Script2.kahnOrder [demoA, demoB] [demoAB, demoBA]).length ≠
      ([demoA, demoB] : List Node).length) ∧
    Script2.cycleDetected [demoA, demoB] [demoAB, demoBA] = true ∧
    (∀ i ∈ nodeIds [demoA, demoB],
      i ∈ Script2.topoOrder [demoA, demoB] [demoAB, demoBA]) ∧
    (∀ n ∈ (Script2.calculate_critical_path [demoA, demoB] [demoAB, demoBA]).1,
      n.onCriticalPath.isSome) := by
  have h := c4_cycle_tolerance [demoA, demoB] [demoAB, demoBA] (by decide)
  exact ⟨by decide, h.1, h.2.2.1, h.2.2.2.2⟩

theorem find?_beq_self {l : List String} {i : String} (h : i ∈ l) :
    l.find? (fun j => j == i) = some i := by
  induction l with
  | nil => simp at h
  | cons j rest ih =>
      by_cases hj : j = i
      · subst hj; simp [List.find?_cons]
      · rcases List.mem_cons.mp h with h' | h'
        · exact absurd h'.symm hj
        · rw [List.find?_cons, beq_eq_false_iff_ne.mpr hj]
          exact ih h'

theorem findNode_append (l₁ l₂ : List Node) (i : String) :
    findNode (l₁ ++ l₂) i = (findNode l₁ i).or (findNode l₂ i) := by
  unfold findNode
  induction l₁ with
  | nil => rw [List.nil_append, List.find?_nil, Option.none_or]
  | cons n rest ih =>
      cases h : (n.id == i)
      · simp only [List.cons_append, List.find?_cons, h]
        exact ih
      · simp only [List.cons_append, List.find?_cons, h]
        rfl

theorem findNode_map_update (l : List Node) (g : Node → Node)
    (hg : ∀ n, (g n).id = n.id) (i : String) :
    findNode (l.map g) i = (findNode l i).map g := by
  unfold findNode
  rw [List.find?_map]
  have hcomp : ((fun n : Node => n.id == i) ∘ g) = fun n : Node => n.id == i := by
    funext n
    simp [Function.comp, hg n]
  rw [hcomp]

theorem findNode_eq_none_iff (l : List Node) (i : String) :
    findNode l i = none ↔ ∀ n ∈ l, n.id ≠ i := by
  unfold findNode
  rw [List.find?_eq_none]
  simp

theorem nodeIds_create_missing (nodes : List Node) (deps : List Dependency) :
    nodeIds (Script1.create_missing_nodes nodes deps) =
      nodeIds nodes ++
        ((deps.flatMap (fun d => [d.source, d.target])).dedup).filter
          (fun i => !((nodeIds nodes).contains i)) := by
  unfold Script1.create_missing_nodes nodeIds
  rw [List.map_append, List.map_map]
  have hcomp : ((fun x : Node => x.id) ∘ Script1.placeholderNode) =
      fun j : String => j := rfl
  rw [hcomp, List.map_id']

/-- C5 counterexample: on input `nodes = []`, `deps = [A → B]`, the node
synthesized for the dangling id "A" ends the run with priority `"medium"`
(not the spec's `Medium`) and with `onCriticalPath = true` (A is on the
critical path), contradicting the claimed `priority Medium` and
`onCriticalPath false`. -/
theorem c5_counterexample :
    findNode (Script1.mainRun [] [demoAB]).1 "A" =
      some { id := "A", title := some "Placeholder for A",
             status := some "Unknown", priority := some "medium",
             assignee := some "Unassigned", epicName := some "Unknown Epic",
             onCriticalPath := some true } ∧
    (some "medium" : Option String) ≠ some "Medium" ∧
    (some true : Option Bool) ≠ some false := by
  refine ⟨by decide, by decide, by decide⟩

/-- C5 amended: for every id referenced by an edge but absent from the node
collection, `create_missing_nodes` synthesizes a placeholder with title
`"Placeholder for <id>"`, status `Unknown`, priority `"medium"` (lower-case in
the source, not the spec's `Medium` enum constant), assignee `"Unassigned"`
and `onCriticalPath = false`; after the annotation step the placeholder
survives with `onCriticalPath` rewritten to its critical-set membership (so
not necessarily `false` after the run), and every edge endpoint resolves to a
node. -/
theorem c5_placeholder_synthesis (nodes : List Node) (deps : List Dependency)
    (i : String) (href : ∃ d ∈ deps, d.source = i ∨ d.target = i)
    (habs : ∀ n ∈ nodes, n.id ≠ i) (crit : List String) :
    findNode (Script1.create_missing_nodes nodes deps) i =
      some (Script1.placeholderNode i) ∧
    (Script1.placeholderNode i).title = some ("Placeholder for " ++ i) ∧
    (Script1.placeholderNode i).status = some "Unknown" ∧
    (Script1.placeholderNode i).priority = some "medium" ∧
    (Script1.placeholderNode i).assignee = some "Unassigned" ∧
    (Script1.placeholderNode i).onCriticalPath = some false ∧
    findNode (Script1.update_nodes_and_dependencies nodes deps crit).1 i =
      some { Script1.placeholderNode i with
             onCriticalPath := some (crit.contains i) } ∧
    (∀ d ∈ deps, hasNode (Script1.create_missing_nodes nodes deps) d.source ∧
      hasNode (Script1.create_missing_nodes nodes deps) d.target) := by
  have hrefmem : i ∈ (deps.flatMap (fun d => [d.source, d.target])).dedup := by
    rw [List.mem_dedup, List.mem_flatMap]
    obtain ⟨d, hd, hsrc⟩ := href
    exact ⟨d, hd, by rcases hsrc with h | h <;> simp [h]⟩
  have hnotid : i ∉ nodeIds nodes := by
    rw [nodeIds, List.mem_map]
    rintro ⟨n, hn, hni⟩
    exact habs n hn hni
  have hmiss : i ∈ ((deps.flatMap (fun d => [d.source, d.target])).dedup).filter
      (fun j => !((nodeIds nodes).contains j)) := by
    rw [List.mem_filter]
    refine ⟨hrefmem, ?_⟩
    simp [contains_iff, hnotid]
  have hfind : findNode (Script1.create_missing_nodes nodes deps) i =
      some (Script1.placeholderNode i) := by
    unfold Script1.create_missing_nodes
    rw [findNode_append]
    have h1 : findNode nodes i = none := (findNode_eq_none_iff nodes i).mpr habs
    rw [h1, Option.none_or]
    unfold findNode
    rw [List.find?_map]
    have : (((deps.flatMap (fun d => [d.source, d.target])).dedup).filter
        (fun j => !((nodeIds nodes).contains j))).find?
          ((fun n => n.id == i) ∘ Script1.placeholderNode) = some i := by
      have heq : ((fun n => n.id == i) ∘ Script1.placeholderNode) =
          fun j => j == i := rfl
      rw [heq]
      exact find?_beq_self hmiss
    rw [this]
    rfl
  refine ⟨hfind, rfl, rfl, rfl, rfl, rfl, ?_, ?_⟩
  · show findNode ((Script1.create_missing_nodes nodes deps).map
        (fun n => { n with onCriticalPath := some (crit.contains n.id) })) i = _
    rw [findNode_map_update (Script1.create_missing_nodes nodes deps)
      (fun n => { n with onCriticalPath := some (crit.contains n.id) })
      (fun n => rfl), hfind]
    rfl
  · intro d hd
    have hids := nodeIds_create_missing nodes deps
    constructor
    · rw [hasNode_iff, hids]
      by_cases hsm : d.source ∈ nodeIds nodes
      · exact List.mem_append_left _ hsm
      · refine List.mem_append_right _ ?_
        rw [List.mem_filter]
        refine ⟨?_, by simp [contains_iff, hsm]⟩
        rw [List.mem_dedup, List.mem_flatMap]
        exact ⟨d, hd, by simp⟩
    · rw [hasNode_iff, hids]
      by_cases htm : d.target ∈ nodeIds nodes
      · exact List.mem_append_left _ htm
      · refine List.mem_append_right _ ?_
        rw [List.mem_filter]
        refine ⟨?_, by simp [contains_iff, htm]⟩
        rw [List.mem_dedup, List.mem_flatMap]
        exact ⟨d, hd, by simp⟩

/-- Witness for C5 (amended) at nodes = [A], deps = [A → B], missing id "B". -/
theorem c5_witness :
    (∃ d ∈ [demoAB], d.source = "B" ∨ d.target = "B") ∧
    (∀ n ∈ [demoA], n.id ≠ "B") ∧
    findNode (Script1.create_missing_nodes [demoA] [demoAB]) "B" =
      some (Script1.placeholderNode "B") ∧
    findNode (Script1.update_nodes_and_dependencies [demoA] [demoAB] ["A"]).1 "B" =
      some { Script1.placeholderNode "B" with
             onCriticalPath := some ((["A"] : List String).contains "B") } := by
  have h := c5_placeholder_synthesis [demoA] [demoAB] "B"
    (by decide) (by decide) ["A"]
  exact ⟨by decide, by decide, h.1, h.2.2.2.2.2.2.1⟩

/-- C7 amended: with an empty edge collection the first script's run marks
every node `onCriticalPath = false`; the second script instead anchors every
node at the project completion time, so nodes of maximal duration come out
critical (see the counterexample). -/
theorem c7_empty_edge_set (nodes : List Node) (n : Node)
    (hn : n ∈ (Script1.mainRun nodes []).1) :
    n.onCriticalPath = some false := by
  unfold Script1.mainRun at hn
  simp only [List.isEmpty_nil, if_true] at hn
  obtain ⟨n₀, _, rfl⟩ := List.mem_map.mp hn
  rfl

/-- C7 counterexample: the second script on a single node and zero edges marks
that node critical (`onCriticalPath = some true`, since its slack is 0), so
the claim "every node ends with onCriticalPath = false" fails there. -/
theorem c7_counterexample :
    (Script2.calculate_critical_path [demoA] []).1.map (·.onCriticalPath) =
      [some true] ∧
    (some true : Option Bool) ≠ some false := by
  constructor
  · simp [Script2.calculate_critical_path, Script2.annotateNodes,
      Script2.criticalNodes, Script2.slackOf, Script2.lsOf, Script2.esOf,
      Script2.backwardTables, Script2.forwardTables, Script2.topoOrder,
      Script2.topological_sort, Script2.kahnOrder, Script2.inDegree,
      Script2.filteredDeps, Script2.graphSucc, Script2.graphPred,
      Script2.endNodes, Script2.pcOf, Script2.projectCompletion,
      Script2.forwardGo, Script2.backwardGo, Script2.maxPredFinish,
      Script2.minSuccStart, Script2.calculate_node_duration,
      Script2.nodeDuration, Script2.get_priority_weight,
      Script2.get_status_weight, kahnGo, processTargets, succE, predE, indegE,
      alookup, nodeIds, hasNode, findNode, demoA, List.find?, List.filter]
  · decide

/-- Witness for C7 (amended) at a single node. -/
theorem c7_witness :
    ({ demoA with onCriticalPath := some false } ∈
      (Script1.mainRun [demoA] []).1) ∧
    ({ demoA with onCriticalPath := some false } : Node).onCriticalPath =
      some false := by
  refine ⟨by decide, c7_empty_edge_set [demoA] _ (by decide)⟩

/-- C10: in the first script a node that is present in the node collection but
is no edge's endpoint always comes out with `onCriticalPath = false`, because
the critical-node set is drawn from `all_nodes`, the ids occurring as some
edge's endpoint. -/
theorem c10_isolated_node_not_critical (nodes : List Node)
    (deps : List Dependency) (n : Node) (hn : n ∈ nodes) (hne : deps ≠ [])
    (hiso : ∀ d ∈ deps, d.source ≠ n.id ∧ d.target ≠ n.id) :
    ({ n with onCriticalPath := some false } ∈ (Script1.mainRun nodes deps).1) ∧
    (∀ c ∈ Script1.criticalNodes deps, ∃ d ∈ deps, d.source = c ∨ d.target = c) := by
  have hall : ∀ c ∈ Script1.criticalNodes deps,
      ∃ d ∈ deps, d.source = c ∨ d.target = c := by
    intro c hc
    have hmem : c ∈ Script1.allNodes deps := (List.mem_filter.mp hc).1
    unfold Script1.allNodes at hmem
    rw [List.mem_dedup, List.mem_flatMap] at hmem
    obtain ⟨d, hd, hcd⟩ := hmem
    refine ⟨d, hd, ?_⟩
    rcases List.mem_cons.mp hcd with h | h
    · exact Or.inl h.symm
    · simp only [List.mem_singleton] at h
      exact Or.inr h.symm
  refine ⟨?_, hall⟩
  have hnid : n.id ∉ Script1.criticalNodes deps := by
    intro hmem
    obtain ⟨d, hd, hor⟩ := hall n.id hmem
    rcases hor with h | h
    · exact (hiso d hd).1 h
    · exact (hiso d hd).2 h
  have hnc : (Script1.criticalNodes deps).contains n.id = false :=
    Bool.eq_false_iff.mpr (fun h => hnid ((contains_iff _ _).mp h))
  have hmem : n ∈ Script1.create_missing_nodes nodes deps := by
    unfold Script1.create_missing_nodes
    exact List.mem_append_left _ hn
  unfold Script1.mainRun
  rw [if_neg (by simpa [List.isEmpty_iff] using hne)]
  show { n with onCriticalPath := some false } ∈
    (Script1.create_missing_nodes nodes deps).map (fun m => { m with onCriticalPath := some ((Script1.criticalNodes deps).contains m.id) })
  rw [List.mem_map]
  exact ⟨n, hmem, by rw [hnc]⟩

/-- Witness for C10: node C sits in the node collection while the only edge is
A → B. -/
theorem c10_witness :
    (demoC ∈ [demoA, demoC]) ∧ (([demoAB] : List Dependency) ≠ []) ∧
    (∀ d ∈ [demoAB], d.source ≠ demoC.id ∧ d.target ≠ demoC.id) ∧
    ({ demoC with onCriticalPath := some false } ∈
      (Script1.mainRun [demoA, demoC] [demoAB]).1) := by
  have h := c10_isolated_node_not_critical [demoA, demoC] [demoAB] demoC
    (by decide) (by decide) (by decide)
  exact ⟨by decide, by decide, by decide, h.1⟩

theorem processTargets_fst (ts : List String) :
    ∀ (f : String → Int) (q : List String) (v : String),
      (processTargets f q ts).1 v = f v - (ts.count v : Int) := by
  induction ts with
  | nil => intro f q v; simp [processTargets]
  | cons t ts' ih =>
      intro f q v
      rw [processTargets, ih]
      by_cases hv : v = t
      · subst hv
        simp only [if_pos rfl, List.count_cons_self]
        push_cast
        ring
      · rw [if_neg hv, List.count_cons_of_ne hv]

theorem processTargets_snd (ts : List String) :
    ∀ (f : String → Int) (q : List String),
      (∀ v ∈ ts, (ts.count v : Int) ≤ f v) →
      ∃ newly, (processTargets f q ts).2 = q ++ newly ∧ newly.Nodup ∧
        (∀ v, v ∈ newly ↔ v ∈ ts ∧ f v = (ts.count v : Int)) := by
  induction ts with
  | nil =>
      intro f q _
      exact ⟨[], by simp [processTargets], List.nodup_nil, by simp⟩
  | cons t ts' ih =>
      intro f q hcnt
      have hcnt' : ∀ v ∈ ts', (ts'.count v : Int) ≤
          (fun x => if x = t then f t - 1 else f x) v := by
        intro v hv
        by_cases hvt : v = t
        · subst hvt
          have h := hcnt v (List.mem_cons_self _ _)
          rw [List.count_cons_self] at h
          simp only [if_pos rfl]
          push_cast at h ⊢
          omega
        · have h := hcnt v (List.mem_cons_of_mem _ hv)
          rw [List.count_cons_of_ne hvt] at h
          simpa [hvt] using h
      by_cases hz : f t - 1 = 0
      · -- t's in-degree hits zero: it is enqueued now, and cannot recur in ts'
        have hft : f t = 1 := by omega
        have htts' : t ∉ ts' := by
          have h := hcnt t (List.mem_cons_self _ _)
          rw [List.count_cons_self, hft] at h
          have : ts'.count t = 0 := by push_cast at h; omega
          exact List.count_eq_zero.mp this
        obtain ⟨newly', heq, hnd, hiff⟩ := ih
          (fun x => if x = t then f t - 1 else f x) (q ++ [t]) hcnt'
        refine ⟨t :: newly', ?_, ?_, ?_⟩
        · rw [processTargets]
          simp only [if_pos hz]
          rw [heq, List.append_assoc, List.singleton_append]
        · rw [List.nodup_cons]
          refine ⟨fun hmem => ?_, hnd⟩
          exact htts' ((hiff t).mp hmem).1
        · intro v
          by_cases hvt : v = t
          · subst hvt
            have hc : List.count v (v :: ts') = 1 := by
              rw [List.count_cons_self, List.count_eq_zero.mpr htts']
            rw [hc]
            constructor
            · intro _
              refine ⟨List.mem_cons_self _ _, ?_⟩
              rw [hft]
              norm_num
            · intro _
              exact List.mem_cons_self _ _
          · rw [List.mem_cons, or_iff_right hvt, hiff v, List.mem_cons,
              or_iff_right hvt, List.count_cons_of_ne hvt]
            simp [hvt]
      · -- t stays positive (or goes negative): nothing enqueued for t now
        obtain ⟨newly', heq, hnd, hiff⟩ := ih
          (fun x => if x = t then f t - 1 else f x) q hcnt'
        refine ⟨newly', ?_, hnd, ?_⟩
        · rw [processTargets]
          simp only [if_neg hz]
          exact heq
        · intro v
          by_cases hvt : v = t
          · subst hvt
            rw [hiff v]
            simp only [if_pos rfl, List.mem_cons, true_or, true_and,
              List.count_cons_self]
            constructor
            · rintro ⟨hm, he⟩
              push_cast at he ⊢
              omega
            · intro he
              have hvts' : v ∈ ts' := by
                by_contra hno
                rw [List.count_eq_zero.mpr hno] at he
                push_cast at he
                omega
              refine ⟨hvts', ?_⟩
              push_cast at he ⊢
              omega
          · rw [hiff v]
            simp only [hvt, if_false, List.mem_cons, or_iff_right hvt,
              List.count_cons_of_ne hvt]
            simp

theorem filter_length_split (l : List α) (p q : α → Bool) :
    (l.filter p).length =
      (l.filter (fun a => p a && q a)).length +
        (l.filter (fun a => p a && !q a)).length := by
  induction l with
  | nil => rfl
  | cons x xs ih =>
      cases hp : p x <;> cases hq : q x <;>
        simp [List.filter_cons, hp, hq, ih] <;> omega

theorem filter_length_mono (l : List α) (p q : α → Bool)
    (h : ∀ a ∈ l, p a = true → q a = true) :
    (l.filter p).length ≤ (l.filter q).length := by
  induction l with
  | nil => exact Nat.le_refl 0
  | cons x xs ih =>
      have ih' := ih (fun a ha => h a (List.mem_cons_of_mem _ ha))
      cases hp : p x
      · cases hq : q x <;> simp [List.filter_cons, hp, hq] <;> omega
      · have hqx := h x (List.mem_cons_self _ _) hp
        simp [List.filter_cons, hp, hqx]
        omega

theorem filter_length_eq_imp (l : List α) (p q : α → Bool)
    (h : ∀ a ∈ l, p a = true → q a = true)
    (hlen : (l.filter q).length ≤ (l.filter p).length) :
    ∀ a ∈ l, q a = true → p a = true := by
  induction l with
  | nil => intro a ha; simp at ha
  | cons x xs ih =>
      have hmono := filter_length_mono xs p q
        (fun a ha => h a (List.mem_cons_of_mem _ ha))
      intro a ha hq
      rcases List.mem_cons.mp ha with rfl | ha'
      · by_contra hp
        have hpx : p a = false := Bool.eq_false_iff.mpr hp
        have h1 : ((a :: xs).filter q).length = (xs.filter q).length + 1 := by
          simp [List.filter_cons, hq]
        have h2 : ((a :: xs).filter p).length = (xs.filter p).length := by
          simp [List.filter_cons, hpx]
        omega
      · refine ih (fun b hb => h b (List.mem_cons_of_mem _ hb)) ?_ a ha' hq
        cases hpx : p x
        · have e1 : ((x :: xs).filter p).length = (xs.filter p).length := by
            simp [List.filter_cons, hpx]
          have e2 : (xs.filter q).length ≤ ((x :: xs).filter q).length := by
            cases hqx : q x <;> simp [List.filter_cons, hqx]
          omega
        · have hqx := h x (List.mem_cons_self _ _) hpx
          have e1 : ((x :: xs).filter p).length = (xs.filter p).length + 1 := by
            simp [List.filter_cons, hpx]
          have e2 : ((x :: xs).filter q).length = (xs.filter q).length + 1 := by
            simp [List.filter_cons, hqx]
          omega

theorem concat_eq_concat_iff {l₁ l₂ : List String} {u x : String}
    (h : l₁ ++ [u] = l₂ ++ [x]) : l₁ = l₂ ∧ u = x := by
  have hr := congrArg List.reverse h
  simp only [List.reverse_append, List.reverse_singleton, List.singleton_append] at hr
  obtain ⟨h1, h2⟩ := List.cons.inj hr
  exact ⟨by simpa using congrArg List.reverse h2, h1⟩

theorem respectsSplit_nil (E : List Dependency) : RespectsSplit E [] := by
  intro d _ a b hab
  exact absurd hab.symm (List.append_ne_nil_of_right_ne_nil a (List.cons_ne_nil _ _))

theorem respectsSplit_concat (E : List Dependency) (R : List String) (u : String)
    (hR : RespectsSplit E R) (hu : ∀ d ∈ E, d.target = u → d.source ∈ R) :
    RespectsSplit E (R ++ [u]) := by
  intro d hd a b hab
  rcases List.eq_nil_or_concat b with rfl | ⟨b', x, rfl⟩
  · obtain ⟨rfl, htu⟩ := concat_eq_concat_iff hab.symm
    exact hu d hd htu
  · have hab' : R ++ [u] = (a ++ d.target :: b') ++ [x] := by
      rw [hab, List.append_assoc]
      simp
    obtain ⟨hR', _⟩ := concat_eq_concat_iff hab'.symm
    exact hR d hd a b' hR'.symm

theorem nodup_middle_not_mem {l xs ys : List String} {y : String}
    (hn : l.Nodup) (hl : l = xs ++ y :: ys) : y ∉ xs ∧ y ∉ ys := by
  subst hl
  rw [List.nodup_middle, List.nodup_cons] at hn
  constructor
  · exact fun h => hn.1 (List.mem_append_left _ h)
  · exact fun h => hn.1 (List.mem_append_right _ h)

theorem respectsSplit_reverse (E : List Dependency) (l : List String)
    (hN : l.Nodup) (hT : ∀ d ∈ E, d.target ∈ l) (h : RespectsSplit E l) :
    RespectsSplit (flipDeps E) l.reverse := by
  intro d' hd' a b hab
  obtain ⟨d, hd, rfl⟩ := List.mem_map.mp hd'
  simp only at hab ⊢
  have hl : l = b.reverse ++ d.source :: a.reverse := by
    have := congrArg List.reverse hab
    simpa using this
  have htl := hT d hd
  rw [hl] at htl
  rcases List.mem_append.mp htl with htb | htca
  · -- target in b.reverse: contradicts the forward order respect
    exfalso
    obtain ⟨α, β, hsplit⟩ := List.append_of_mem htb
    have hsrc : d.source ∈ α := by
      refine h d hd α (β ++ d.source :: a.reverse) ?_
      rw [hl, hsplit]
      simp
    have hnot := (nodup_middle_not_mem hN hl).1
    exact hnot (by rw [hsplit]; exact List.mem_append_left _ hsrc)
  · rcases List.mem_cons.mp htca with hts | hta
    · -- self-loop: source occurs both at the split point and before it
      exfalso
      have hsrc : d.source ∈ b.reverse := by
        refine h d hd b.reverse a.reverse ?_
        rw [hl, hts]
      exact (nodup_middle_not_mem hN hl).1 (hts ▸ hsrc)
    · simpa using hta

theorem count_succE (E : List Dependency) (u v : String) :
    (succE E u).count v =
      (E.filter (fun d => d.target == v && d.source == u)).length := by
  induction E with
  | nil => rfl
  | cons d E' ih =>
      by_cases hs : d.source = u
      · have hp : (fun e : Dependency => e.source == u) d = true := by simp [hs]
        have hstep : succE (d :: E') u = d.target :: succE E' u := by
          unfold succE
          rw [@List.filter_cons_of_pos _ (fun e => e.source == u) d E' hp]
          rfl
        rw [hstep]
        by_cases ht : d.target = v
        · have hp2 : (fun e : Dependency => e.target == v && e.source == u) d = true := by
            simp [ht, hs]
          rw [@List.filter_cons_of_pos _ (fun e => e.target == v && e.source == u) d E' hp2,
            List.length_cons, ← ih, ht, List.count_cons_self]
        · have hp2 : ¬(fun e : Dependency => e.target == v && e.source == u) d = true := by
            simp [ht]
          rw [@List.filter_cons_of_neg _ (fun e => e.target == v && e.source == u) d E' hp2,
            List.count_cons_of_ne (Ne.symm ht)]
          exact ih
      · have hp : ¬(fun e : Dependency => e.source == u) d = true := by simp [hs]
        have hstep : succE (d :: E') u = succE E' u := by
          unfold succE
          rw [@List.filter_cons_of_neg _ (fun e => e.source == u) d E' hp]
        have hp2 : ¬(fun e : Dependency => e.target == v && e.source == u) d = true := by
          simp [hs]
        rw [hstep,
          @List.filter_cons_of_neg _ (fun e => e.target == v && e.source == u) d E' hp2]
        exact ih

theorem edgesFrom_nil (E : List Dependency) (v : String) :
    edgesFrom E v [] = 0 := by
  unfold edgesFrom
  simp [List.contains]

theorem indegE_sub_edgesFrom (E : List Dependency) (v : String) (R : List String) :
    indegE E v - (edgesFrom E v R : Int) =
      ((E.filter (fun d => d.target == v && !(R.contains d.source))).length : Int) := by
  unfold indegE edgesFrom
  have h := filter_length_split E (fun d => d.target == v)
    (fun d => R.contains d.source)
  omega

theorem edgesFrom_concat (E : List Dependency) (v u : String) (R : List String)
    (hu : u ∉ R) :
    edgesFrom E v (R ++ [u]) =
      edgesFrom E v R +
        (E.filter (fun d => d.target == v && d.source == u)).length := by
  unfold edgesFrom
  induction E with
  | nil => rfl
  | cons d E' ih =>
      by_cases hp1 : (fun e : Dependency =>
          e.target == v && (R ++ [u]).contains e.source) d = true
      · have hA := (Bool.and_eq_true _ _).mp hp1
        have ht : d.target = v := by simpa using hA.1
        have hsru : d.source ∈ R ∨ d.source = u := by
          have h2 := (contains_iff _ _).mp hA.2
          rcases List.mem_append.mp h2 with h | h
          · exact Or.inl h
          · exact Or.inr (by simpa using h)
        rw [@List.filter_cons_of_pos _
          (fun e => e.target == v && (R ++ [u]).contains e.source) d E' hp1]
        rcases hsru with hsr | hsu
        · have hp2 : (fun e : Dependency =>
              e.target == v && R.contains e.source) d = true := by
            simp [ht, hsr]
          have hp3 : ¬(fun e : Dependency =>
              e.target == v && e.source == u) d = true := by
            have hne : d.source ≠ u := fun he => hu (he ▸ hsr)
            simp [hne]
          rw [@List.filter_cons_of_pos _
              (fun e => e.target == v && R.contains e.source) d E' hp2,
            @List.filter_cons_of_neg _
              (fun e => e.target == v && e.source == u) d E' hp3]
          simp only [List.length_cons, ih]
          omega
        · have hnR : d.source ∉ R := hsu ▸ hu
          have hp2 : ¬(fun e : Dependency =>
              e.target == v && R.contains e.source) d = true := by
            simp [ht, hnR]
          have hp3 : (fun e : Dependency =>
              e.target == v && e.source == u) d = true := by
            simp [ht, hsu]
          rw [@List.filter_cons_of_neg _
              (fun e => e.target == v && R.contains e.source) d E' hp2,
            @List.filter_cons_of_pos _
              (fun e => e.target == v && e.source == u) d E' hp3]
          simp only [List.length_cons, ih]
          omega
      · have hp2 : ¬(fun e : Dependency =>
            e.target == v && R.contains e.source) d = true := by
          intro hc
          apply hp1
          have hA := (Bool.and_eq_true _ _).mp hc
          have hin : d.source ∈ R ++ [u] :=
            List.mem_append_left _ ((contains_iff _ _).mp hA.2)
          simp only []
          rw [hA.1, (contains_iff _ _).mpr hin]
          rfl
        have hp3 : ¬(fun e : Dependency =>
            e.target == v && e.source == u) d = true := by
          intro hc
          apply hp1
          have hA := (Bool.and_eq_true _ _).mp hc
          have hsu : d.source = u := by simpa using hA.2
          have hin : d.source ∈ R ++ [u] :=
            List.mem_append_right _ (by simp [hsu])
          simp only []
          rw [hA.1, (contains_iff _ _).mpr hin]
          rfl
        rw [@List.filter_cons_of_neg _
            (fun e => e.target == v && (R ++ [u]).contains e.source) d E' hp1,
          @List.filter_cons_of_neg _
            (fun e => e.target == v && R.contains e.source) d E' hp2,
          @List.filter_cons_of_neg _
            (fun e => e.target == v && e.source == u) d E' hp3]
        exact ih

theorem mem_succE (E : List Dependency) (u v : String) (hv : v ∈ succE E u) :
    ∃ d ∈ E, d.source = u ∧ d.target = v := by
  unfold succE at hv
  obtain ⟨d, hd, rfl⟩ := List.mem_map.mp hv
  have hm := List.mem_filter.mp hd
  exact ⟨d, hm.1, by simpa using hm.2, rfl⟩

theorem kinv_step (E : List Dependency) (V : List String)
    (hE : ∀ d ∈ E, d.source ∈ V ∧ d.target ∈ V)
    (u : String) (Q : List String) (f : String → Int) (R : List String)
    (hK : KInv E V (u :: Q) f R) :
    KInv E V (processTargets f Q (succE E u)).2
      (processTargets f Q (succE E u)).1 (R ++ [u]) := by
  obtain ⟨hnodup, hsub, hdeg, hqz, hresp, hqsrc⟩ := hK
  have huRQ := nodup_middle_not_mem hnodup (rfl : R ++ u :: Q = R ++ u :: Q)
  have huR : u ∉ R := huRQ.1
  have huQ : u ∉ Q := huRQ.2
  -- the precondition of the inner-loop characterization: each target's
  -- multiplicity in graph[u] is bounded by its current in-degree
  have hcnt : ∀ v ∈ succE E u, ((succE E u).count v : Int) ≤ f v := by
    intro v hv
    rw [count_succE, hdeg v, indegE_sub_edgesFrom]
    have hmono := filter_length_mono E
      (fun d => d.target == v && d.source == u)
      (fun d => d.target == v && !(R.contains d.source))
      (by
        intro d hd hp
        have hA := (Bool.and_eq_true _ _).mp hp
        have hsu : d.source = u := by simpa using hA.2
        have hnin : d.source ∉ R := hsu ▸ huR
        have hcf : R.contains d.source = false :=
          Bool.eq_false_iff.mpr (fun hc => hnin ((contains_iff _ _).mp hc))
        show (d.target == v && !(R.contains d.source)) = true
        rw [hA.1, hcf]
        rfl)
    exact_mod_cast hmono
  obtain ⟨newly, hqeq, hnnd, hniff⟩ := processTargets_snd (succE E u) f Q hcnt
  -- every member of `newly` has all of its in-edges inside R ++ [u]
  have hnewly_edges : ∀ v ∈ newly, ∀ d ∈ E, d.target = v → d.source ∈ R ++ [u] := by
    intro v hv d hd htv
    obtain ⟨hvts, hfv⟩ := (hniff v).mp hv
    have heq : (E.filter (fun e => e.target == v && !(R.contains e.source))).length ≤
        (E.filter (fun e => e.target == v && e.source == u)).length := by
      have h1 := hdeg v
      rw [indegE_sub_edgesFrom] at h1
      rw [count_succE] at hfv
      omega
    by_cases hsR : d.source ∈ R
    · exact List.mem_append_left _ hsR
    · have himp := filter_length_eq_imp E
        (fun e => e.target == v && e.source == u)
        (fun e => e.target == v && !(R.contains e.source))
        (by
          intro e he hp
          have hA := (Bool.and_eq_true _ _).mp hp
          have hsu : e.source = u := by simpa using hA.2
          have hnin : e.source ∉ R := hsu ▸ huR
          have hcf : R.contains e.source = false :=
            Bool.eq_false_iff.mpr (fun hc => hnin ((contains_iff _ _).mp hc))
          show (e.target == v && !(R.contains e.source)) = true
          rw [hA.1, hcf]
          rfl)
        heq
      have hcf : R.contains d.source = false :=
        Bool.eq_false_iff.mpr (fun hc => hsR ((contains_iff _ _).mp hc))
      have hd' := himp d hd (by
        have hbv : (d.target == v) = true := by simp [htv]
        show (d.target == v && !(R.contains d.source)) = true
        rw [hbv, hcf]
        rfl)
      have hA := (Bool.and_eq_true _ _).mp hd'
      have hsu : d.source = u := by simpa using hA.2
      exact List.mem_append_right _ (by simp [hsu])
  -- members of `newly` are fresh: not in R, not u, not in Q
  have hnewly_fresh : ∀ v ∈ newly, v ∉ R ∧ v ≠ u ∧ v ∉ Q := by
    intro v hv
    obtain ⟨hvts, hfv⟩ := (hniff v).mp hv
    obtain ⟨d, hd, hds, hdt⟩ := mem_succE E u v hvts
    have hcpos : 0 < (succE E u).count v := List.count_pos_iff.mpr hvts
    refine ⟨?_, ?_, ?_⟩
    · intro hvR
      obtain ⟨a, b, hab⟩ := List.append_of_mem hvR
      have hsrc : d.source ∈ a := hresp d hd a b (by rw [hdt]; exact hab)
      rw [hds] at hsrc
      exact huR (hab ▸ List.mem_append_left _ hsrc)
    · intro hvu
      subst hvu
      have h0 := hqz v (List.mem_cons_self _ _)
      omega
    · intro hvQ
      have h0 := hqz v (List.mem_cons_of_mem _ hvQ)
      omega
  rw [hqeq]
  refine ⟨?_, ?_, ?_, ?_, ?_, ?_⟩
  · -- Nodup of (R ++ [u]) ++ (Q ++ newly)
    have hre : (R ++ [u]) ++ (Q ++ newly) = (R ++ u :: Q) ++ newly := by
      simp
    rw [hre]
    refine List.Nodup.append hnodup hnnd ?_
    intro x hx hxn
    obtain ⟨hxR, hxu, hxQ⟩ := hnewly_fresh x hxn
    rcases List.mem_append.mp hx with h | h
    · exact hxR h
    · rcases List.mem_cons.mp h with h | h
      · exact hxu h
      · exact hxQ h
  · -- membership in the node universe
    intro x hx
    have hre : (R ++ [u]) ++ (Q ++ newly) = (R ++ u :: Q) ++ newly := by
      simp
    rw [hre] at hx
    rcases List.mem_append.mp hx with h | h
    · exact hsub x h
    · obtain ⟨hxts, _⟩ := (hniff x).mp h
      obtain ⟨d, hd, _, hdt⟩ := mem_succE E u x hxts
      exact hdt ▸ (hE d hd).2
  · -- the in-degree relation after discharging u's out-edges
    intro v
    rw [processTargets_fst, hdeg v, count_succE, edgesFrom_concat E v u R huR]
    push_cast
    ring
  · -- queue members all have in-degree 0
    intro v hv
    rw [processTargets_fst]
    rcases List.mem_append.mp hv with hvQ | hvn
    · have h0 := hqz v (List.mem_cons_of_mem _ hvQ)
      have hvnot : v ∉ succE E u := by
        intro hvs
        obtain ⟨d, hd, hds, hdt⟩ := mem_succE E u v hvs
        have := hqsrc v (List.mem_cons_of_mem _ hvQ) d hd hdt
        exact huR (hds ▸ this)
      rw [List.count_eq_zero.mpr hvnot]
      omega
    · obtain ⟨_, hfv⟩ := (hniff v).mp hvn
      omega
  · exact respectsSplit_concat E R u hresp (hqsrc u (List.mem_cons_self _ _))
  · intro v hv d hd hdt
    rcases List.mem_append.mp hv with hvQ | hvn
    · exact List.mem_append_left _ (hqsrc v (List.mem_cons_of_mem _ hvQ) d hd hdt)
    · exact hnewly_edges v hvn d hd hdt

theorem kahnGo_kinv (E : List Dependency) (V : List String)
    (hE : ∀ d ∈ E, d.source ∈ V ∧ d.target ∈ V) :
    ∀ (fuel : Nat) (Q : List String) (f : String → Int) (R : List String),
      KInv E V Q f R →
      (kahnGo (succE E) fuel Q f R).Nodup ∧
      (∀ x ∈ kahnGo (succE E) fuel Q f R, x ∈ V) ∧
      RespectsSplit E (kahnGo (succE E) fuel Q f R) := by
  intro fuel
  induction fuel with
  | zero =>
      intro Q f R hK
      refine ⟨?_, ?_, hK.resp⟩
      · exact (List.nodup_append.mp hK.nodup).1
      · exact fun x hx => hK.subV x (List.mem_append_left _ hx)
  | succ fuel ih =>
      intro Q f R hK
      cases Q with
      | nil =>
          refine ⟨?_, ?_, hK.resp⟩
          · exact (List.nodup_append.mp hK.nodup).1
          · exact fun x hx => hK.subV x (List.mem_append_left _ hx)
      | cons u Q' =>
          rw [kahnGo]
          exact ih _ _ _ (kinv_step E V hE u Q' f R hK)

theorem kahnOrder_kinv_init (nodes : List Node) (deps : List Dependency)
    (hN : (nodeIds nodes).Nodup) :
    KInv (Script2.filteredDeps nodes deps) (nodeIds nodes)
      ((nodeIds nodes).filter (fun i => Script2.inDegree nodes deps i == 0))
      (Script2.inDegree nodes deps) [] := by
  refine ⟨?_, ?_, ?_, ?_, respectsSplit_nil _, ?_⟩
  · rw [List.nil_append]
    exact hN.filter _
  · intro x hx
    rw [List.nil_append] at hx
    exact (List.mem_filter.mp hx).1
  · intro v
    rw [edgesFrom_nil]
    show Script2.inDegree nodes deps v = indegE (Script2.filteredDeps nodes deps) v - 0
    rw [Int.sub_zero]
    rfl
  · intro v hv
    have := (List.mem_filter.mp hv).2
    simpa using this
  · intro v hv d hd hdt
    exfalso
    have h0 : Script2.inDegree nodes deps v = 0 := by
      have := (List.mem_filter.mp hv).2
      simpa using this
    have hpos : 0 < ((Script2.filteredDeps nodes deps).filter
        (fun e => e.target == v)).length := by
      apply List.length_pos_of_mem
      rw [List.mem_filter]
      exact ⟨hd, by simp [hdt]⟩
    have : Script2.inDegree nodes deps v =
        (((Script2.filteredDeps nodes deps).filter
          (fun e => e.target == v)).length : Int) := rfl
    omega

theorem filteredDeps_mem_nodeIds (nodes : List Node) (deps : List Dependency) :
    ∀ d ∈ Script2.filteredDeps nodes deps,
      d.source ∈ nodeIds nodes ∧ d.target ∈ nodeIds nodes := by
  intro d hd
  have hm := List.mem_filter.mp hd
  have hA := (Bool.and_eq_true _ _).mp hm.2
  exact ⟨(hasNode_iff _ _).mp hA.1, (hasNode_iff _ _).mp hA.2⟩

theorem kahnOrder_props (nodes : List Node) (deps : List Dependency)
    (hN : (nodeIds nodes).Nodup) :
    (Script2.kahnOrder nodes deps).Nodup ∧
    (∀ x ∈ Script2.kahnOrder nodes deps, x ∈ nodeIds nodes) ∧
    RespectsSplit (Script2.filteredDeps nodes deps)
      (Script2.kahnOrder nodes deps) := by
  have hmain := kahnGo_kinv (Script2.filteredDeps nodes deps) (nodeIds nodes)
    (filteredDeps_mem_nodeIds nodes deps) (nodeIds nodes).length
    ((nodeIds nodes).filter (fun i => Script2.inDegree nodes deps i == 0))
    (Script2.inDegree nodes deps) [] (kahnOrder_kinv_init nodes deps hN)
  exact hmain

theorem nodup_subset_length_le {l₁ l₂ : List String} (h₁ : l₁.Nodup)
    (hsub : ∀ x ∈ l₁, x ∈ l₂) : l₁.length ≤ l₂.length := by
  have hc1 : l₁.toFinset.card = l₁.length := List.toFinset_card_of_nodup h₁
  have hss : l₁.toFinset ⊆ l₂.toFinset := by
    intro x hx
    rw [List.mem_toFinset] at hx ⊢
    exact hsub x hx
  calc l₁.length = l₁.toFinset.card := hc1.symm
    _ ≤ l₂.toFinset.card := Finset.card_le_card hss
    _ ≤ l₂.length := l₂.toFinset_card_le

theorem no_cycle_facts (nodes : List Node) (deps : List Dependency)
    (hN : (nodeIds nodes).Nodup)
    (hC : Script2.cycleDetected nodes deps = false) :
    Script2.topoOrder nodes deps = Script2.kahnOrder nodes deps ∧
    (Script2.topoOrder nodes deps).Nodup ∧
    RespectsSplit (Script2.filteredDeps nodes deps)
      (Script2.topoOrder nodes deps) ∧
    (∀ i, i ∈ Script2.topoOrder nodes deps ↔ i ∈ nodeIds nodes) := by
  have hprops := kahnOrder_props nodes deps hN
  have hlen : (Script2.kahnOrder nodes deps).length = nodes.length := by
    by_contra hne
    have hT : Script2.cycleDetected nodes deps = true := by
      unfold Script2.cycleDetected Script2.topological_sort
      simp [hne]
    rw [hT] at hC
    exact Bool.noConfusion hC
  have htopo : Script2.topoOrder nodes deps = Script2.kahnOrder nodes deps := by
    unfold Script2.topoOrder Script2.topological_sort
    simp [hlen]
  have hids_len : (nodeIds nodes).length = nodes.length := List.length_map _ _
  have hcov : ∀ i, i ∈ Script2.kahnOrder nodes deps ↔ i ∈ nodeIds nodes := by
    intro i
    constructor
    · exact hprops.2.1 i
    · intro hi
      by_contra hni
      have hnodup' : (Script2.kahnOrder nodes deps ++ [i]).Nodup := by
        refine List.Nodup.append hprops.1 (List.nodup_singleton i) ?_
        intro a ha hai
        rw [List.mem_singleton] at hai
        subst hai
        exact hni ha
      have hsub' : ∀ x ∈ Script2.kahnOrder nodes deps ++ [i], x ∈ nodeIds nodes := by
        intro a ha
        rcases List.mem_append.mp ha with h | h
        · exact hprops.2.1 a h
        · rw [List.mem_singleton] at h
          exact h ▸ hi
      have hle := nodup_subset_length_le hnodup' hsub'
      rw [List.length_append, List.length_singleton, hlen, hids_len] at hle
      omega
  refine ⟨htopo, htopo ▸ hprops.1, htopo ▸ hprops.2.2, ?_⟩
  intro i
  rw [htopo]
  exact hcov i

theorem mem_predE (E : List Dependency) (v p : String) :
    p ∈ predE E v ↔ ∃ d ∈ E, d.target = v ∧ d.source = p := by
  unfold predE
  rw [List.mem_map]
  constructor
  · rintro ⟨d, hd, rfl⟩
    have hm := List.mem_filter.mp hd
    exact ⟨d, hm.1, by simpa using hm.2, rfl⟩
  · rintro ⟨d, hd, htv, rfl⟩
    exact ⟨d, List.mem_filter.mpr ⟨hd, by simp [htv]⟩, rfl⟩

theorem maxPredFinish_cons_notmem (preds : List String) (m : String) (w : ℚ)
    (ef : List (String × ℚ)) (hm : m ∉ preds) :
    Script2.maxPredFinish preds ((m, w) :: ef) =
      Script2.maxPredFinish preds ef := by
  unfold Script2.maxPredFinish
  rw [maxPredFinish_eq, maxPredFinish_eq]
  congr 1
  apply List.filterMap_congr
  intro p hp
  rw [alookup_cons, if_neg (fun he => hm (by rw [he]; exact hp))]

theorem respects_pred_mem_left (E : List Dependency) (l₁ : List String)
    (m : String) (rest : List String)
    (hnd : (l₁ ++ m :: rest).Nodup)
    (hresp : RespectsSplit E (l₁ ++ m :: rest))
    (n : String) (hn : n ∈ l₁ ∨ n = m) (hm : m ∈ predE E n) : False := by
  obtain ⟨d, hd, hdt, hds⟩ := (mem_predE E n m).mp hm
  have hmnl : m ∉ l₁ := (nodup_middle_not_mem hnd rfl).1
  rcases hn with hn | rfl
  · obtain ⟨a, b, hab⟩ := List.append_of_mem hn
    have hsrc : d.source ∈ a := by
      refine hresp d hd a (b ++ m :: rest) ?_
      rw [hab, hdt]
      simp
    rw [hds] at hsrc
    exact hmnl (hab ▸ List.mem_append_left _ hsrc)
  · have hsrc : d.source ∈ l₁ := hresp d hd l₁ rest (by rw [hdt])
    rw [hds] at hsrc
    exact hmnl hsrc

theorem forwardGo_invariant (dur : String → ℚ) (E : List Dependency) :
    ∀ (rest l₁ : List String) (es ef : List (String × ℚ)),
      (l₁ ++ rest).Nodup →
      RespectsSplit E (l₁ ++ rest) →
      akeys es = l₁.reverse →
      akeys ef = l₁.reverse →
      (∀ n ∈ l₁, ∃ s, alookup es n = some s ∧
        alookup ef n = some (s + dur n) ∧
        s = Script2.maxPredFinish (predE E n) ef) →
      akeys (Script2.forwardGo dur (predE E) rest es ef).1 = (l₁ ++ rest).reverse ∧
      akeys (Script2.forwardGo dur (predE E) rest es ef).2 = (l₁ ++ rest).reverse ∧
      (∀ n ∈ l₁ ++ rest, ∃ s,
        alookup (Script2.forwardGo dur (predE E) rest es ef).1 n = some s ∧
        alookup (Script2.forwardGo dur (predE E) rest es ef).2 n = some (s + dur n) ∧
        s = Script2.maxPredFinish (predE E n)
          (Script2.forwardGo dur (predE E) rest es ef).2) := by
  intro rest
  induction rest with
  | nil =>
      intro l₁ es ef hnd hresp hkes hkef hinv
      rw [List.append_nil] at *
      exact ⟨hkes, hkef, fun n hn => hinv n hn⟩
  | cons m rest' ih =>
      intro l₁ es ef hnd hresp hkes hkef hinv
      have hmfresh := nodup_middle_not_mem hnd rfl
      have hstep : Script2.forwardGo dur (predE E) (m :: rest') es ef =
          Script2.forwardGo dur (predE E) rest'
            ((m, Script2.maxPredFinish (predE E m) ef) :: es)
            ((m, Script2.maxPredFinish (predE E m) ef + dur m) :: ef) := rfl
      rw [hstep]
      have hassoc : l₁ ++ m :: rest' = (l₁ ++ [m]) ++ rest' := by simp
      have hres := ih (l₁ ++ [m])
        ((m, Script2.maxPredFinish (predE E m) ef) :: es)
        ((m, Script2.maxPredFinish (predE E m) ef + dur m) :: ef)
        (hassoc ▸ hnd) (hassoc ▸ hresp)
        (by rw [akeys_cons, hkes]; simp)
        (by rw [akeys_cons, hkef]; simp)
        (by
          intro n hn
          rcases List.mem_append.mp hn with hnl | hnm
          · obtain ⟨s, h1, h2, h3⟩ := hinv n hnl
            have hne : m ≠ n := fun he => hmfresh.1 (by rw [he]; exact hnl)
            refine ⟨s, ?_, ?_, ?_⟩
            · rw [alookup_cons, if_neg hne]
              exact h1
            · rw [alookup_cons, if_neg hne]
              exact h2
            · rw [maxPredFinish_cons_notmem _ _ _ _
                (fun hc => respects_pred_mem_left E l₁ m rest' hnd hresp n
                  (Or.inl hnl) hc)]
              exact h3
          · rw [List.mem_singleton] at hnm
            subst hnm
            refine ⟨Script2.maxPredFinish (predE E n) ef, ?_, ?_, ?_⟩
            · rw [alookup_cons, if_pos rfl]
            · rw [alookup_cons, if_pos rfl]
            · rw [maxPredFinish_cons_notmem _ _ _ _
                (fun hc => respects_pred_mem_left E l₁ n rest' hnd hresp n
                  (Or.inr rfl) hc)])
      rw [hassoc]
      exact hres

theorem duration_ge (nodes : List Node) (i : String) :
    1/10 ≤ Script2.calculate_node_duration nodes i := by
  unfold Script2.calculate_node_duration
  cases findNode nodes i with
  | none => exact le_refl _
  | some node => exact le_max_right _ _

theorem projectCompletion_ge (ef : List (String × ℚ)) (i : String) (v : ℚ)
    (h : (i, v) ∈ ef) : v ≤ Script2.projectCompletion ef := by
  unfold Script2.projectCompletion
  have hv : v ∈ ef.map (·.2) := List.mem_map_of_mem _ h
  cases hm : ef.map (·.2) with
  | nil => rw [hm] at hv; simp at hv
  | cons v₀ vs =>
      rw [hm] at hv
      rcases List.mem_cons.mp hv with rfl | hv'
      · exact foldl_max_init_le vs v
      · exact le_foldl_max vs v₀ hv'

theorem projectCompletion_attained (ef : List (String × ℚ)) (hne : ef ≠ []) :
    ∃ p ∈ ef, Script2.projectCompletion ef = p.2 := by
  unfold Script2.projectCompletion
  cases hm : ef.map (·.2) with
  | nil =>
      exfalso
      exact hne (List.map_eq_nil_iff.mp hm)
  | cons v₀ vs =>
      have hval : vs.foldl max v₀ = v₀ ∨ vs.foldl max v₀ ∈ vs :=
        foldl_max_eq_init_or_mem vs v₀
      have hmem : vs.foldl max v₀ ∈ ef.map (·.2) := by
        rw [hm]
        rcases hval with h | h
        · rw [h]; exact List.mem_cons_self _ _
        · exact List.mem_cons_of_mem _ h
      obtain ⟨p, hp, hpv⟩ := List.mem_map.mp hmem
      exact ⟨p, hp, hpv.symm⟩

theorem maxPredFinish_ge (preds : List String) (ef : List (String × ℚ))
    (p : String) (hp : p ∈ preds) (v : ℚ) (hv : alookup ef p = some v) :
    v ≤ Script2.maxPredFinish preds ef := by
  rw [maxPredFinish_eq_filterMap]
  apply le_foldl_max
  rw [List.mem_filterMap]
  exact ⟨p, hp, hv⟩

theorem forward_facts (nodes : List Node) (deps : List Dependency)
    (hN : (nodeIds nodes).Nodup)
    (hC : Script2.cycleDetected nodes deps = false) :
    akeys (Script2.forwardTables nodes deps).1 =
      (Script2.topoOrder nodes deps).reverse ∧
    akeys (Script2.forwardTables nodes deps).2 =
      (Script2.topoOrder nodes deps).reverse ∧
    (∀ n ∈ nodeIds nodes, ∃ s,
      alookup (Script2.forwardTables nodes deps).1 n = some s ∧
      alookup (Script2.forwardTables nodes deps).2 n =
        some (s + Script2.calculate_node_duration nodes n) ∧
      s = Script2.maxPredFinish (Script2.graphPred nodes deps n)
        (Script2.forwardTables nodes deps).2) := by
  obtain ⟨-, hnd, hresp, hcov⟩ := no_cycle_facts nodes deps hN hC
  have h := forwardGo_invariant (Script2.calculate_node_duration nodes)
    (Script2.filteredDeps nodes deps) (Script2.topoOrder nodes deps) [] [] []
    (by simpa using hnd) (by simpa using hresp) rfl rfl
    (by intro n hn; simp at hn)
  refine ⟨by simpa using h.1, by simpa using h.2.1, ?_⟩
  intro n hn
  have hmem : n ∈ [] ++ Script2.topoOrder nodes deps := by
    simpa using (hcov n).mpr hn
  exact h.2.2 n hmem

/-- C1: the forward pass: along the topological order of an acyclic run
(no cycle detected, node ids unique), earliest start is the maximum earliest
finish over the node's predecessors (0 when it has none), earliest finish is
earliest start plus the node's duration, and the project completion time is
the maximum earliest finish over all nodes (0 for an empty node collection). -/
theorem c1_forward_pass (nodes : List Node) (deps : List Dependency)
    (hN : (nodeIds nodes).Nodup)
    (hC : Script2.cycleDetected nodes deps = false) :
    (nodes = [] → Script2.pcOf nodes deps = 0) ∧
    ∀ n ∈ nodeIds nodes,
      Script2.efOf nodes deps n =
        Script2.esOf nodes deps n + Script2.calculate_node_duration nodes n ∧
      (Script2.graphPred nodes deps n = [] → Script2.esOf nodes deps n = 0) ∧
      (∀ p ∈ Script2.graphPred nodes deps n,
        Script2.efOf nodes deps p ≤ Script2.esOf nodes deps n) ∧
      (Script2.graphPred nodes deps n ≠ [] →
        ∃ p ∈ Script2.graphPred nodes deps n,
          Script2.esOf nodes deps n = Script2.efOf nodes deps p) ∧
      Script2.efOf nodes deps n ≤ Script2.pcOf nodes deps ∧
      (∃ mx ∈ nodeIds nodes,
        Script2.pcOf nodes deps = Script2.efOf nodes deps mx) := by
  obtain ⟨-, hnd, -, hcov⟩ := no_cycle_facts nodes deps hN hC
  obtain ⟨hkes, hkef, hprop⟩ := forward_facts nodes deps hN hC
  have hkefnd : (akeys (Script2.forwardTables nodes deps).2).Nodup := by
    rw [hkef]
    exact List.nodup_reverse.mpr hnd
  refine ⟨?_, ?_⟩
  · intro he
    subst he
    rfl
  intro n hn
  obtain ⟨s, h1, h2, h3⟩ := hprop n hn
  have hes : Script2.esOf nodes deps n = s := by
    unfold Script2.esOf
    rw [h1]
    rfl
  have hef : Script2.efOf nodes deps n =
      s + Script2.calculate_node_duration nodes n := by
    unfold Script2.efOf
    rw [h2]
    rfl
  have hpred_ids : ∀ p ∈ Script2.graphPred nodes deps n, p ∈ nodeIds nodes := by
    intro p hp
    obtain ⟨d, hd, _, hds⟩ :=
      (mem_predE (Script2.filteredDeps nodes deps) n p).mp hp
    exact hds ▸ (filteredDeps_mem_nodeIds nodes deps d hd).1
  refine ⟨by rw [hes, hef], ?_, ?_, ?_, ?_, ?_⟩
  · intro hnone
    rw [hes, h3, hnone]
    rfl
  · intro p hp
    obtain ⟨sp, hp1, hp2, _⟩ := hprop p (hpred_ids p hp)
    have hefp : Script2.efOf nodes deps p =
        sp + Script2.calculate_node_duration nodes p := by
      unfold Script2.efOf
      rw [hp2]
      rfl
    rw [hefp, hes, h3]
    exact maxPredFinish_ge _ _ p hp _ hp2
  · intro hne
    rw [hes, h3, maxPredFinish_eq_filterMap]
    rcases foldl_max_eq_init_or_mem
        ((Script2.graphPred nodes deps n).filterMap
          (alookup (Script2.forwardTables nodes deps).2)) 0 with h0 | hmem
    · exfalso
      obtain ⟨p₀, hp₀⟩ := List.exists_mem_of_ne_nil _ hne
      obtain ⟨sp, hq1, hq2, hq3⟩ := hprop p₀ (hpred_ids p₀ hp₀)
      have hle := maxPredFinish_ge (Script2.graphPred nodes deps n)
        (Script2.forwardTables nodes deps).2 p₀ hp₀ _ hq2
      rw [maxPredFinish_eq_filterMap, h0] at hle
      have hsp : 0 ≤ sp := by
        rw [hq3]
        exact maxPredFinish_nonneg _ _
      have hd := duration_ge nodes p₀
      have : (0 : ℚ) < sp + Script2.calculate_node_duration nodes p₀ := by
        have : (0 : ℚ) < 1/10 := by norm_num
        linarith
      linarith
    · obtain ⟨p, hp, hpv⟩ := List.mem_filterMap.mp hmem
      refine ⟨p, hp, ?_⟩
      unfold Script2.efOf
      rw [hpv]
      rfl
  · rw [hef]
    exact projectCompletion_ge _ n _ (mem_of_alookup_eq_some h2)
  · have hefne : (Script2.forwardTables nodes deps).2 ≠ [] := by
      intro hnil
      rw [hnil] at h2
      simp [alookup] at h2
    obtain ⟨p, hp, hpv⟩ :=
      projectCompletion_attained (Script2.forwardTables nodes deps).2 hefne
    have hkey : p.1 ∈ nodeIds nodes := by
      have : p.1 ∈ akeys (Script2.forwardTables nodes deps).2 :=
        List.mem_map_of_mem _ hp
      rw [hkef, List.mem_reverse] at this
      exact (hcov p.1).mp this
    refine ⟨p.1, hkey, ?_⟩
    have hlk : alookup (Script2.forwardTables nodes deps).2 p.1 = some p.2 :=
      alookup_eq_some_of_mem hkefnd (by simpa using hp)
    unfold Script2.pcOf Script2.efOf
    rw [hlk, hpv]
    rfl

/-- Witness for C1 on the chain A → B. -/
theorem c1_witness :
    ((nodeIds [demoA, demoB]).Nodup ∧
     Script2.cycleDetected [demoA, demoB] [demoAB] = false) ∧
    (("B" ∈ nodeIds [demoA, demoB]) ∧
     Script2.efOf [demoA, demoB] [demoAB] "B" =
       Script2.esOf [demoA, demoB] [demoAB] "B" +
         Script2.calculate_node_duration [demoA, demoB] "B") := by
  have h := c1_forward_pass [demoA, demoB] [demoAB] (by decide) (by decide)
  exact ⟨⟨by decide, by decide⟩, by decide, (h.2 "B" (by decide)).1⟩

theorem minSuccStart_cons_notmem (succs : List String) (m : String) (w : ℚ)
    (pc : ℚ) (ls : List (String × ℚ)) (hm : m ∉ succs) :
    Script2.minSuccStart succs pc ((m, w) :: ls) =
      Script2.minSuccStart succs pc ls := by
  rw [minSuccStart_eq_filterMap, minSuccStart_eq_filterMap]
  congr 1
  apply List.filterMap_congr
  intro p hp
  rw [alookup_cons, if_neg (fun he => hm (by rw [he]; exact hp))]

theorem predE_flipDeps (E : List Dependency) (v : String) :
    predE (flipDeps E) v = succE E v := by
  unfold predE succE flipDeps
  induction E with
  | nil => rfl
  | cons d E' ih =>
      by_cases hs : d.source = v
      · simp only [List.map_cons, List.filter_cons, hs]
        simp [ih]
      · simp only [List.map_cons, List.filter_cons]
        have h1 : (d.source == v) = false := by simp [hs]
        simp [h1, ih]

theorem backwardGo_invariant (dur : String → ℚ) (E : List Dependency) (pc : ℚ)
    (efmap esmap : List (String × ℚ)) (ends : List String)
    (hdur : ∀ i, 1/10 ≤ dur i)
    (hpcle : ∀ i v, alookup efmap i = some v → v ≤ pc)
    (hesef : ∀ d ∈ E, ∀ fv sv, alookup efmap d.source = some fv →
      alookup esmap d.target = some sv → fv ≤ sv) :
    ∀ (rest m₁ : List String) (lf ls : List (String × ℚ)),
      (m₁ ++ rest).Nodup →
      RespectsSplit (flipDeps E) (m₁ ++ rest) →
      (∀ d ∈ E, d.target ∈ m₁ ++ rest) →
      (∀ i ∈ m₁ ++ rest, ∃ s, alookup esmap i = some s ∧
        alookup efmap i = some (s + dur i)) →
      BInv dur E pc efmap ends m₁ lf ls →
      BInv dur E pc efmap ends (m₁ ++ rest)
        (Script2.backwardGo dur (succE E) pc rest lf ls).1
        (Script2.backwardGo dur (succE E) pc rest lf ls).2 := by
  intro rest
  induction rest with
  | nil =>
      intro m₁ lf ls _ _ _ _ hB
      rw [List.append_nil]
      exact hB
  | cons i rest' ih =>
      intro m₁ lf ls hnd hresp htgt hfw hB
      have hifresh := nodup_middle_not_mem hnd rfl
      have hnoself : i ∉ succE E i := by
        intro hc
        exact respects_pred_mem_left (flipDeps E) m₁ i rest' hnd hresp i
          (Or.inr rfl) (by rw [predE_flipDeps]; exact hc)
      have hsucc_old : ∀ n ∈ m₁, i ∉ succE E n := by
        intro n hn hc
        exact respects_pred_mem_left (flipDeps E) m₁ i rest' hnd hresp n
          (Or.inl hn) (by rw [predE_flipDeps]; exact hc)
      -- the value the step assigns to latest finish of i
      have hassoc : m₁ ++ i :: rest' = (m₁ ++ [i]) ++ rest' := by simp
      -- case split on whether i is pre-seeded (an end node) or interior
      cases hlk : alookup lf i with
      | some v =>
          have hiends : i ∈ ends := by
            have h1 := (hB.keys1 i).mp (by rw [hlk]; rfl)
            rcases h1 with h | h
            · exact absurd h hifresh.1
            · exact h
          have hvpc : v = pc := by
            have := hB.seeds i hiends
            rw [hlk] at this
            exact Option.some.inj this
          rw [hvpc] at hlk
          have hstep : Script2.backwardGo dur (succE E) pc (i :: rest') lf ls =
              Script2.backwardGo dur (succE E) pc rest' lf
                ((i, pc - dur i) :: ls) := by
            rw [Script2.backwardGo, hlk]
          rw [hstep, hassoc]
          refine ih (m₁ ++ [i]) lf ((i, pc - dur i) :: ls)
            (hassoc ▸ hnd) (hassoc ▸ hresp) (fun d hd => hassoc ▸ htgt d hd)
            (fun j hj => hfw j (hassoc ▸ hj)) ?_
          refine ⟨?_, hB.le_pc, ?_, hB.seeds, ?_⟩
          · intro j
            rw [hB.keys1 j]
            constructor
            · rintro (h | h)
              · exact Or.inl (List.mem_append_left _ h)
              · exact Or.inr h
            · rintro (h | h)
              · rcases List.mem_append.mp h with h' | h'
                · exact Or.inl h'
                · rw [List.mem_singleton] at h'
                  subst h'
                  exact Or.inr hiends
              · exact Or.inr h
          · rw [akeys_cons, hB.keys2]
            simp
          · intro j hj
            rcases List.mem_append.mp hj with hjm | hji
            · obtain ⟨fv, h1, h2, h3, h4, h5⟩ := hB.prop j hjm
              have hji' : i ≠ j := fun he => hifresh.1 (by rw [he]; exact hjm)
              refine ⟨fv, h1, ?_, h3, ?_, h5⟩
              · rw [alookup_cons, if_neg hji']
                exact h2
              · intro hjends
                rw [minSuccStart_cons_notmem _ _ _ _ _ (hsucc_old j hjm)]
                exact h4 hjends
            · rw [List.mem_singleton] at hji
              subst hji
              refine ⟨pc, hlk, ?_, fun _ => rfl, fun hc => absurd hiends hc, ?_⟩
              · rw [alookup_cons, if_pos rfl]
              · intro ev hev
                exact hpcle j ev hev
      | none =>
          have hiends : i ∉ ends := by
            intro hc
            have := hB.seeds i hc
            rw [hlk] at this
            exact Option.noConfusion this
          have hstep : Script2.backwardGo dur (succE E) pc (i :: rest') lf ls =
              Script2.backwardGo dur (succE E) pc rest'
                ((i, Script2.minSuccStart (succE E i) pc ls) :: lf)
                ((i, Script2.minSuccStart (succE E i) pc ls - dur i) :: ls) := by
            rw [Script2.backwardGo, hlk]
          set w := Script2.minSuccStart (succE E i) pc ls with hw
          have hwle : w ≤ pc := by
            rw [hw, minSuccStart_eq_filterMap]
            exact foldl_min_le_init _ pc
          -- every earliest finish of i is bounded by the new latest finish
          have hifin : ∀ ev, alookup efmap i = some ev → ev ≤ w := by
            intro ev hev
            rw [hw, minSuccStart_eq_filterMap]
            apply le_foldl_min
            · exact hpcle i ev hev
            · intro x hx
              obtain ⟨s, hs, hsx⟩ := List.mem_filterMap.mp hx
              have hsm : s ∈ m₁ := by
                have : s ∈ akeys ls := (alookup_isSome_iff ls s).mp
                  (by rw [hsx]; rfl)
                rw [hB.keys2, List.mem_reverse] at this
                exact this
              obtain ⟨fs, hs1, hs2, _, _, hs5⟩ := hB.prop s hsm
              have hkeysnd : (akeys ls).Nodup := by
                rw [hB.keys2]
                apply List.nodup_reverse.mpr
                exact (List.nodup_append.mp hnd).1
              have hxval : x = fs - dur s := by
                rw [hs2] at hsx
                exact (Option.some.inj hsx).symm
              obtain ⟨d, hd, hds, hdt⟩ := mem_succE E i s hs
              obtain ⟨ss, hss1, hss2⟩ := hfw s
                (List.mem_append_left _ hsm)
              have hevss : ev ≤ ss := by
                refine hesef d hd ev ss ?_ ?_
                · rw [hds]; exact hev
                · rw [hdt]; exact hss1
              have hfs_ge : ss + dur s ≤ fs := hs5 _ hss2
              have hds_ge := hdur s
              rw [hxval]
              linarith
          rw [hstep, hassoc]
          refine ih (m₁ ++ [i]) ((i, w) :: lf) ((i, w - dur i) :: ls)
            (hassoc ▸ hnd) (hassoc ▸ hresp) (fun d hd => hassoc ▸ htgt d hd)
            (fun j hj => hfw j (hassoc ▸ hj)) ?_
          refine ⟨?_, ?_, ?_, ?_, ?_⟩
          · intro j
            by_cases hji : i = j
            · subst hji
              simp only [alookup_cons, if_pos rfl]
              constructor
              · intro _
                exact Or.inl (List.mem_append_right _ (by simp))
              · intro _
                rfl
            · rw [alookup_cons, if_neg hji, hB.keys1 j]
              constructor
              · rintro (h | h)
                · exact Or.inl (List.mem_append_left _ h)
                · exact Or.inr h
              · rintro (h | h)
                · rcases List.mem_append.mp h with h' | h'
                  · exact Or.inl h'
                  · rw [List.mem_singleton] at h'
                    exact absurd h'.symm hji
                · exact Or.inr h
          · intro j v hv
            by_cases hji : i = j
            · subst hji
              rw [alookup_cons, if_pos rfl] at hv
              obtain rfl := Option.some.inj hv
              exact hwle
            · rw [alookup_cons, if_neg hji] at hv
              exact hB.le_pc j v hv
          · rw [akeys_cons, hB.keys2]
            simp
          · intro j hj
            have hji : i ≠ j := fun he => hiends (by rw [he]; exact hj)
            rw [alookup_cons, if_neg hji]
            exact hB.seeds j hj
          · intro j hj
            rcases List.mem_append.mp hj with hjm | hji
            · obtain ⟨fv, h1, h2, h3, h4, h5⟩ := hB.prop j hjm
              have hji' : i ≠ j := fun he => hifresh.1 (by rw [he]; exact hjm)
              refine ⟨fv, ?_, ?_, h3, ?_, h5⟩
              · rw [alookup_cons, if_neg hji']
                exact h1
              · rw [alookup_cons, if_neg hji']
                exact h2
              · intro hjends
                rw [minSuccStart_cons_notmem _ _ _ _ _ (hsucc_old j hjm)]
                exact h4 hjends
            · rw [List.mem_singleton] at hji
              subst hji
              refine ⟨w, ?_, ?_, fun hc => absurd hc hiends, ?_, hifin⟩
              · rw [alookup_cons, if_pos rfl]
              · rw [alookup_cons, if_pos rfl]
              · intro _
                rw [minSuccStart_cons_notmem _ _ _ _ _ hnoself]

theorem akeys_const_map (l : List String) (c : ℚ) :
    akeys (l.map (fun i => (i, c))) = l := by
  unfold akeys
  rw [List.map_map]
  exact List.map_id' l

theorem alookup_const_map (l : List String) (c : ℚ) (j : String) (hj : j ∈ l) :
    alookup (l.map (fun i => (i, c))) j = some c := by
  unfold alookup
  rw [List.find?_map]
  have hcomp : ((fun p : String × ℚ => p.1 == j) ∘ fun i => (i, c)) =
      fun i => i == j := rfl
  rw [hcomp, find?_beq_self hj]
  rfl

theorem backward_facts (nodes : List Node) (deps : List Dependency)
    (hN : (nodeIds nodes).Nodup)
    (hC : Script2.cycleDetected nodes deps = false) :
    BInv (Script2.calculate_node_duration nodes)
      (Script2.filteredDeps nodes deps) (Script2.pcOf nodes deps)
      (Script2.forwardTables nodes deps).2 (Script2.endNodes nodes deps)
      ([] ++ (Script2.topoOrder nodes deps).reverse)
      (Script2.backwardTables nodes deps).1
      (Script2.backwardTables nodes deps).2 := by
  obtain ⟨-, hnd, hresp, hcov⟩ := no_cycle_facts nodes deps hN hC
  obtain ⟨-, hkef, hprop⟩ := forward_facts nodes deps hN hC
  have hpcle : ∀ i v, alookup (Script2.forwardTables nodes deps).2 i = some v →
      v ≤ Script2.pcOf nodes deps := by
    intro i v hv
    exact projectCompletion_ge _ i v (mem_of_alookup_eq_some hv)
  have hesef : ∀ d ∈ Script2.filteredDeps nodes deps, ∀ fv sv,
      alookup (Script2.forwardTables nodes deps).2 d.source = some fv →
      alookup (Script2.forwardTables nodes deps).1 d.target = some sv →
      fv ≤ sv := by
    intro d hd fv sv hfv hsv
    obtain ⟨s, h1, h2, h3⟩ :=
      hprop d.target (filteredDeps_mem_nodeIds nodes deps d hd).2
    have hsv' : sv = s := by
      rw [h1] at hsv
      exact (Option.some.inj hsv).symm
    rw [hsv', h3]
    refine maxPredFinish_ge _ _ d.source ?_ fv hfv
    exact (mem_predE (Script2.filteredDeps nodes deps) d.target d.source).mpr
      ⟨d, hd, rfl, rfl⟩
  have hinit : BInv (Script2.calculate_node_duration nodes)
      (Script2.filteredDeps nodes deps) (Script2.pcOf nodes deps)
      (Script2.forwardTables nodes deps).2 (Script2.endNodes nodes deps) []
      ((Script2.endNodes nodes deps).map (fun i => (i, Script2.pcOf nodes deps)))
      [] := by
    refine ⟨?_, ?_, rfl, ?_, ?_⟩
    · intro j
      rw [alookup_isSome_iff, akeys_const_map]
      simp
    · intro j v hv
      have hm := mem_of_alookup_eq_some hv
      obtain ⟨a, _, hpair⟩ := List.mem_map.mp hm
      have : v = Script2.pcOf nodes deps := (Prod.mk.injEq .. ▸ hpair).2 ▸ rfl
      rw [this]
    · intro j hj
      exact alookup_const_map _ _ j hj
    · intro j hj
      simp at hj
  have hmain := backwardGo_invariant (Script2.calculate_node_duration nodes)
    (Script2.filteredDeps nodes deps) (Script2.pcOf nodes deps)
    (Script2.forwardTables nodes deps).2 (Script2.forwardTables nodes deps).1
    (Script2.endNodes nodes deps) (duration_ge nodes) hpcle hesef
    (Script2.topoOrder nodes deps).reverse []
    ((Script2.endNodes nodes deps).map (fun i => (i, Script2.pcOf nodes deps)))
    []
    (by simpa using List.nodup_reverse.mpr hnd)
    (by
      have := respectsSplit_reverse (Script2.filteredDeps nodes deps)
        (Script2.topoOrder nodes deps) hnd
        (fun d hd => (hcov d.target).mpr
          (filteredDeps_mem_nodeIds nodes deps d hd).2) hresp
      simpa using this)
    (by
      intro d hd
      rw [List.nil_append, List.mem_reverse]
      exact (hcov d.target).mpr (filteredDeps_mem_nodeIds nodes deps d hd).2)
    (by
      intro i hi
      rw [List.nil_append, List.mem_reverse] at hi
      obtain ⟨s, h1, h2, _⟩ := hprop i ((hcov i).mp hi)
      exact ⟨s, h1, h2⟩)
    hinit
  exact hmain

/-- C2: the backward pass of an acyclic run: every node with no successors has
latest finish equal to the project completion time; every interior node's
latest finish is the minimum latest start over its successors (the
project-completion fallback cannot trigger on an acyclic order, where every
successor is already resolved); and latest start is latest finish minus
duration. -/
theorem c2_backward_pass (nodes : List Node) (deps : List Dependency)
    (hN : (nodeIds nodes).Nodup)
    (hC : Script2.cycleDetected nodes deps = false) :
    ∀ n ∈ nodeIds nodes,
      Script2.lsOf nodes deps n =
        Script2.lfOf nodes deps n - Script2.calculate_node_duration nodes n ∧
      (Script2.graphSucc nodes deps n = [] →
        Script2.lfOf nodes deps n = Script2.pcOf nodes deps) ∧
      (Script2.graphSucc nodes deps n ≠ [] →
        (∀ s ∈ Script2.graphSucc nodes deps n,
          Script2.lfOf nodes deps n ≤ Script2.lsOf nodes deps s) ∧
        (∃ s ∈ Script2.graphSucc nodes deps n,
          Script2.lfOf nodes deps n = Script2.lsOf nodes deps s)) := by
  obtain ⟨-, hnd, -, hcov⟩ := no_cycle_facts nodes deps hN hC
  have hB := backward_facts nodes deps hN hC
  have hmem : ∀ n ∈ nodeIds nodes,
      n ∈ [] ++ (Script2.topoOrder nodes deps).reverse := by
    intro n hn
    rw [List.nil_append, List.mem_reverse]
    exact (hcov n).mpr hn
  have hsucc_ids : ∀ n s, s ∈ Script2.graphSucc nodes deps n →
      s ∈ nodeIds nodes := by
    intro n s hs
    obtain ⟨d, hd, _, hdt⟩ :=
      mem_succE (Script2.filteredDeps nodes deps) n s hs
    exact hdt ▸ (filteredDeps_mem_nodeIds nodes deps d hd).2
  have hls_val : ∀ s ∈ nodeIds nodes, ∃ fs,
      alookup (Script2.backwardTables nodes deps).1 s = some fs ∧
      Script2.lsOf nodes deps s = fs - Script2.calculate_node_duration nodes s ∧
      fs ≤ Script2.pcOf nodes deps := by
    intro s hs
    obtain ⟨fs, g1, g2, _, _, _⟩ := hB.prop s (hmem s hs)
    refine ⟨fs, g1, ?_, hB.le_pc s fs g1⟩
    unfold Script2.lsOf
    rw [g2]
    rfl
  intro n hn
  obtain ⟨fv, h1, h2, h3, h4, h5⟩ := hB.prop n (hmem n hn)
  have hlf : Script2.lfOf nodes deps n = fv := by
    unfold Script2.lfOf
    rw [h1]
    rfl
  have hls : Script2.lsOf nodes deps n =
      fv - Script2.calculate_node_duration nodes n := by
    unfold Script2.lsOf
    rw [h2]
    rfl
  refine ⟨by rw [hls, hlf], ?_, ?_⟩
  · intro hempty
    rw [hlf]
    refine h3 ?_
    unfold Script2.endNodes
    rw [List.mem_filter]
    refine ⟨hn, ?_⟩
    have : Script2.graphSucc nodes deps n = [] := hempty
    simp [this]
  · intro hne
    have hnotend : n ∉ Script2.endNodes nodes deps := by
      intro hc
      unfold Script2.endNodes at hc
      rw [List.mem_filter] at hc
      exact hne (List.isEmpty_iff.mp (by simpa using hc.2))
    have hfveq := h4 hnotend
    have hval_of : ∀ s ∈ Script2.graphSucc nodes deps n, ∃ fs,
        alookup (Script2.backwardTables nodes deps).2 s =
          some (fs - Script2.calculate_node_duration nodes s) ∧
        Script2.lsOf nodes deps s =
          fs - Script2.calculate_node_duration nodes s ∧
        fs ≤ Script2.pcOf nodes deps := by
      intro s hs
      obtain ⟨fs, g1, g2, _, _, _⟩ := hB.prop s (hmem s (hsucc_ids n s hs))
      refine ⟨fs, g2, ?_, hB.le_pc s fs g1⟩
      unfold Script2.lsOf
      rw [g2]
      rfl
    constructor
    · intro s hs
      obtain ⟨fs, g1, g2, _⟩ := hval_of s hs
      rw [hlf, hfveq, g2, minSuccStart_eq_filterMap]
      apply foldl_min_le
      rw [List.mem_filterMap]
      exact ⟨s, hs, g1⟩
    · rw [hlf, hfveq, minSuccStart_eq_filterMap]
      rcases foldl_min_eq_init_or_mem
          ((Script2.graphSucc nodes deps n).filterMap
            (alookup (Script2.backwardTables nodes deps).2))
          (Script2.pcOf nodes deps) with h0 | hmm
      · exfalso
        obtain ⟨s₀, hs₀⟩ := List.exists_mem_of_ne_nil _ hne
        obtain ⟨fs, g1, g2, g3⟩ := hval_of s₀ hs₀
        have hle := foldl_min_le
          ((Script2.graphSucc nodes deps n).filterMap
            (alookup (Script2.backwardTables nodes deps).2))
          (Script2.pcOf nodes deps)
          (List.mem_filterMap.mpr ⟨s₀, hs₀, g1⟩)
        rw [h0] at hle
        have hd := duration_ge nodes s₀
        have h110 : (0 : ℚ) < 1/10 := by norm_num
        linarith
      · obtain ⟨s, hs, hsv⟩ := List.mem_filterMap.mp hmm
        refine ⟨s, hs, ?_⟩
        unfold Script2.lsOf
        rw [hsv]
        rfl

/-- Witness for C2 on the chain A → B. -/
theorem c2_witness :
    ((nodeIds [demoA, demoB]).Nodup ∧
     Script2.cycleDetected [demoA, demoB] [demoAB] = false ∧
     "B" ∈ nodeIds [demoA, demoB]) ∧
    (Script2.lsOf [demoA, demoB] [demoAB] "B" =
      Script2.lfOf [demoA, demoB] [demoAB] "B" -
        Script2.calculate_node_duration [demoA, demoB] "B") := by
  have h := c2_backward_pass [demoA, demoB] [demoAB] (by decide) (by decide)
  exact ⟨⟨by decide, by decide, by decide⟩, (h "B" (by decide)).1⟩

/-- C8: time-table invariants of an acyclic run: earliest finish dominates
earliest start, latest finish dominates latest start, slack is latest start
minus earliest start and never falls below −1e-3 (it is in fact
non-negative). -/
theorem c8_time_table_invariants (nodes : List Node) (deps : List Dependency)
    (hN : (nodeIds nodes).Nodup)
    (hC : Script2.cycleDetected nodes deps = false) :
    ∀ n ∈ nodeIds nodes,
      Script2.esOf nodes deps n ≤ Script2.efOf nodes deps n ∧
      Script2.lsOf nodes deps n ≤ Script2.lfOf nodes deps n ∧
      Script2.slackOf nodes deps n =
        Script2.lsOf nodes deps n - Script2.esOf nodes deps n ∧
      -(1/1000) ≤ Script2.slackOf nodes deps n ∧
      0 ≤ Script2.slackOf nodes deps n := by
  obtain ⟨-, hnd, -, hcov⟩ := no_cycle_facts nodes deps hN hC
  obtain ⟨-, -, hprop⟩ := forward_facts nodes deps hN hC
  have hB := backward_facts nodes deps hN hC
  intro n hn
  obtain ⟨s, h1, h2, -⟩ := hprop n hn
  have hes : Script2.esOf nodes deps n = s := by
    unfold Script2.esOf
    rw [h1]
    rfl
  have hef : Script2.efOf nodes deps n =
      s + Script2.calculate_node_duration nodes n := by
    unfold Script2.efOf
    rw [h2]
    rfl
  have hmemr : n ∈ [] ++ (Script2.topoOrder nodes deps).reverse := by
    rw [List.nil_append, List.mem_reverse]
    exact (hcov n).mpr hn
  obtain ⟨fv, g1, g2, -, -, g5⟩ := hB.prop n hmemr
  have hlf : Script2.lfOf nodes deps n = fv := by
    unfold Script2.lfOf
    rw [g1]
    rfl
  have hls : Script2.lsOf nodes deps n =
      fv - Script2.calculate_node_duration nodes n := by
    unfold Script2.lsOf
    rw [g2]
    rfl
  have hd := duration_ge nodes n
  have hfge : s + Script2.calculate_node_duration nodes n ≤ fv := g5 _ h2
  have h110 : (0 : ℚ) < 1/10 := by norm_num
  have hslack : Script2.slackOf nodes deps n =
      Script2.lsOf nodes deps n - Script2.esOf nodes deps n := rfl
  refine ⟨by rw [hes, hef]; linarith, by rw [hls, hlf]; linarith, hslack, ?_, ?_⟩
  · rw [hslack, hls, hes]
    linarith
  · rw [hslack, hls, hes]
    linarith

/-- Witness for C8 on the chain A → B. -/
theorem c8_witness :
    ((nodeIds [demoA, demoB]).Nodup ∧
     Script2.cycleDetected [demoA, demoB] [demoAB] = false ∧
     "A" ∈ nodeIds [demoA, demoB]) ∧
    (-(1/1000) ≤ Script2.slackOf [demoA, demoB] [demoAB] "A") := by
  have h := c8_time_table_invariants [demoA, demoB] [demoAB] (by decide) (by decide)
  exact ⟨⟨by decide, by decide, by decide⟩, (h "A" (by decide)).2.2.2.1⟩

theorem annotateNodes_length (crit : List String) (nodes : List Node) :
    (Script2.annotateNodes crit nodes).length = nodes.length := by
  unfold Script2.annotateNodes
  exact List.length_map _ _

theorem nodeIds_annotate (crit : List String) (nodes : List Node) :
    nodeIds (Script2.annotateNodes crit nodes) = nodeIds nodes := by
  unfold Script2.annotateNodes nodeIds
  rw [List.map_map]
  rfl

theorem hasNode_annotate (crit : List String) (nodes : List Node) :
    hasNode (Script2.annotateNodes crit nodes) = hasNode nodes := by
  funext i
  unfold hasNode Script2.annotateNodes
  rw [List.find?_map]
  have hcomp : ((fun n : Node => n.id == i) ∘
      fun n => { n with onCriticalPath := some (crit.contains n.id) }) =
      fun n : Node => n.id == i := rfl
  rw [hcomp]
  cases nodes.find? (fun n : Node => n.id == i) <;> rfl

theorem duration_annotate (crit : List String) (nodes : List Node) :
    Script2.calculate_node_duration (Script2.annotateNodes crit nodes) =
      Script2.calculate_node_duration nodes := by
  funext i
  unfold Script2.calculate_node_duration findNode Script2.annotateNodes
  rw [List.find?_map]
  have hcomp : ((fun n : Node => n.id == i) ∘
      fun n => { n with onCriticalPath := some (crit.contains n.id) }) =
      fun n : Node => n.id == i := rfl
  rw [hcomp]
  cases nodes.find? (fun n : Node => n.id == i) with
  | none => rfl
  | some n => rfl

theorem filteredDeps_annotate (crit : List String) (nodes : List Node)
    (deps : List Dependency) :
    Script2.filteredDeps (Script2.annotateNodes crit nodes)
      (Script2.annotateDeps nodes crit deps) =
    (Script2.filteredDeps nodes deps).map (fun d =>
      let t : String :=
        if crit.contains d.source && crit.contains d.target &&
            hasNode nodes d.source && hasNode nodes d.target
        then "critical" else "parallel"
      { d with pathType := some t }) := by
  unfold Script2.filteredDeps Script2.annotateDeps
  rw [hasNode_annotate, List.filter_map]
  rfl

theorem succE_map_pathType (E : List Dependency)
    (g : Dependency → Dependency)
    (hg : ∀ d, (g d).source = d.source ∧ (g d).target = d.target) (u : String) :
    succE (E.map g) u = succE E u := by
  unfold succE
  rw [List.filter_map]
  have hcomp : ((fun d : Dependency => d.source == u) ∘ g) =
      fun d : Dependency => d.source == u := by
    funext d
    simp [Function.comp, (hg d).1]
  rw [hcomp, List.map_map]
  apply List.map_congr_left
  intro d _
  exact (hg d).2

theorem predE_map_pathType (E : List Dependency)
    (g : Dependency → Dependency)
    (hg : ∀ d, (g d).source = d.source ∧ (g d).target = d.target) (v : String) :
    predE (E.map g) v = predE E v := by
  unfold predE
  rw [List.filter_map]
  have hcomp : ((fun d : Dependency => d.target == v) ∘ g) =
      fun d : Dependency => d.target == v := by
    funext d
    simp [Function.comp, (hg d).2]
  rw [hcomp, List.map_map]
  apply List.map_congr_left
  intro d _
  exact (hg d).1

theorem indegE_map_pathType (E : List Dependency)
    (g : Dependency → Dependency)
    (hg : ∀ d, (g d).source = d.source ∧ (g d).target = d.target) (v : String) :
    indegE (E.map g) v = indegE E v := by
  unfold indegE
  rw [List.filter_map]
  have hcomp : ((fun d : Dependency => d.target == v) ∘ g) =
      fun d : Dependency => d.target == v := by
    funext d
    simp [Function.comp, (hg d).2]
  rw [hcomp, List.length_map]

theorem pipeline_congr (nodes : List Node) (deps : List Dependency)
    (crit : List String) :
    Script2.criticalNodes (Script2.annotateNodes crit nodes)
      (Script2.annotateDeps nodes crit deps) =
    Script2.criticalNodes nodes deps := by
  have hg : ∀ d : Dependency,
      ((fun d : Dependency =>
        let t : String :=
          if crit.contains d.source && crit.contains d.target &&
              hasNode nodes d.source && hasNode nodes d.target
          then "critical" else "parallel"
        { d with pathType := some t }) d).source = d.source ∧
      ((fun d : Dependency =>
        let t : String :=
          if crit.contains d.source && crit.contains d.target &&
              hasNode nodes d.source && hasNode nodes d.target
          then "critical" else "parallel"
        { d with pathType := some t }) d).target = d.target :=
    fun d => ⟨rfl, rfl⟩
  have hsuccf : Script2.graphSucc (Script2.annotateNodes crit nodes)
      (Script2.annotateDeps nodes crit deps) = Script2.graphSucc nodes deps := by
    funext u
    unfold Script2.graphSucc
    rw [filteredDeps_annotate]
    exact succE_map_pathType _ _ hg u
  have hpredf : Script2.graphPred (Script2.annotateNodes crit nodes)
      (Script2.annotateDeps nodes crit deps) = Script2.graphPred nodes deps := by
    funext v
    unfold Script2.graphPred
    rw [filteredDeps_annotate]
    exact predE_map_pathType _ _ hg v
  have hindegf : Script2.inDegree (Script2.annotateNodes crit nodes)
      (Script2.annotateDeps nodes crit deps) = Script2.inDegree nodes deps := by
    funext v
    unfold Script2.inDegree
    rw [filteredDeps_annotate]
    exact indegE_map_pathType _ _ hg v
  have htopo : Script2.topological_sort (Script2.annotateNodes crit nodes)
      (Script2.annotateDeps nodes crit deps) =
      Script2.topological_sort nodes deps := by
    unfold Script2.topological_sort Script2.kahnOrder
    rw [hsuccf, hindegf, nodeIds_annotate, annotateNodes_length]
  have hfwd : Script2.forwardTables (Script2.annotateNodes crit nodes)
      (Script2.annotateDeps nodes crit deps) =
      Script2.forwardTables nodes deps := by
    unfold Script2.forwardTables Script2.topoOrder
    rw [htopo, hpredf, duration_annotate]
  have hpc : Script2.pcOf (Script2.annotateNodes crit nodes)
      (Script2.annotateDeps nodes crit deps) = Script2.pcOf nodes deps := by
    unfold Script2.pcOf
    rw [hfwd]
  have hends : Script2.endNodes (Script2.annotateNodes crit nodes)
      (Script2.annotateDeps nodes crit deps) = Script2.endNodes nodes deps := by
    unfold Script2.endNodes
    rw [nodeIds_annotate, hsuccf]
  have hbwd : Script2.backwardTables (Script2.annotateNodes crit nodes)
      (Script2.annotateDeps nodes crit deps) =
      Script2.backwardTables nodes deps := by
    unfold Script2.backwardTables Script2.topoOrder
    rw [htopo, hsuccf, duration_annotate, hpc, hends]
  unfold Script2.criticalNodes
  rw [nodeIds_annotate]
  apply List.filter_congr
  intro i _
  simp only [Script2.slackOf, Script2.lsOf, Script2.esOf, hfwd, hbwd]

theorem annotateNodes_idem (crit : List String) (nodes : List Node) :
    Script2.annotateNodes crit (Script2.annotateNodes crit nodes) =
      Script2.annotateNodes crit nodes := by
  unfold Script2.annotateNodes
  rw [List.map_map]
  apply List.map_congr_left
  intro n _
  rfl

theorem annotateDeps_idem (crit : List String) (nodes : List Node)
    (deps : List Dependency) :
    Script2.annotateDeps (Script2.annotateNodes crit nodes) crit
      (Script2.annotateDeps nodes crit deps) =
      Script2.annotateDeps nodes crit deps := by
  unfold Script2.annotateDeps
  rw [hasNode_annotate, List.map_map]
  apply List.map_congr_left
  intro d _
  rfl

/-- C9: annotation idempotence: running `calculate_critical_path` on its own
output (same graph, same duration policy — the annotation touches neither ids
nor priorities/statuses nor edge endpoints) reproduces exactly the same
`onCriticalPath` and `pathType` values. -/
theorem c9_annotation_idempotent (nodes : List Node) (deps : List Dependency) :
    Script2.calculate_critical_path
      (Script2.calculate_critical_path nodes deps).1
      (Script2.calculate_critical_path nodes deps).2 =
    Script2.calculate_critical_path nodes deps := by
  have hcongr := pipeline_congr nodes deps (Script2.criticalNodes nodes deps)
  unfold Script2.calculate_critical_path
  rw [hcongr]
  exact congrArg₂ Prod.mk
    (annotateNodes_idem (Script2.criticalNodes nodes deps) nodes)
    (annotateDeps_idem (Script2.criticalNodes nodes deps) nodes deps)
